import Mathlib

/-!
# Verification of the `nilhecke` odd polynomial engine

A shallow embedding of the Rust sources (`src/polynomial.rs`, `src/main.rs`)
of the `nilhecke` repository, together with proofs and refutations of the
frozen specification claims.

Conventions of the embedding:
* Rust `Vec<u32>` power vectors become `List Nat`; `i32` coefficients become
  `Int` (the spec declares native-integer overflow out of scope).
* Rust strings become `List Char`, so that the splitting and number-reading
  functions are plain structural recursions.
* Fallible operations (indexing that may panic, checked subtraction,
  `FromStr`) return `Option`/`Except`: `none` models a panic.
-/

set_option autoImplicit false

namespace Nilhecke

/-- An odd monomial: a signed coefficient and the powers of each variable in
ascending order (`src/polynomial.rs`, `OddMonomial`). -/
structure OddMonomial where
  coefficient : Int
  powers : List Nat
deriving DecidableEq, Repr

/-- `OddMonomial::is_zero`. -/
def OddMonomial.is_zero (m : OddMonomial) : Bool :=
  m.coefficient == 0

/-- `OddMonomial::x(n)`: the single variable `x_n` (powers `0,...,0,1`). -/
def OddMonomial.x (n : Nat) : OddMonomial :=
  ⟨1, List.replicate (n - 1) 0 ++ [1]⟩

/-- The body of the `Mul` impl for `&OddMonomial` (`src/polynomial.rs`,
lines 196-221): the loop over `other.powers`, carrying the mutable
`powers` vector, the loop index, the running counter `n_variables` and the
`coefficient`.  Unsigned subtraction is modelled by truncated `Nat`
subtraction and the index read `powers[i + 1]` by `getD _ 0`; the checked
variant `mulLoopChecked` below models the panics, and the two are proved to
agree. -/
def mulLoop : List Nat → Nat → List Nat → Nat → Int → List Nat × Int
  | powers, _, [], _, coefficient => (powers, coefficient)
  | powers, i, power :: rest, n_variables, coefficient =>
    let powers' := powers.set i (powers.getD i 0 + power)
    let coefficient' :=
      if n_variables % 2 ≠ 0 ∧ power % 2 ≠ 0 then -coefficient else coefficient
    let n_variables' :=
      if 0 < n_variables then n_variables - powers'.getD (i + 1) 0 else n_variables
    mulLoop powers' (i + 1) rest n_variables' coefficient'

/-- Multiplication of odd monomials (`impl Mul for &OddMonomial`):
clone `self.powers`, zero-pad it to the length of `other.powers`, set
`n_variables` to the sum of `self`'s powers at indices `≥ 1`, and run the
scanning loop over `other.powers`. -/
def OddMonomial.mul (a b : OddMonomial) : OddMonomial :=
  let powers := a.powers ++ List.replicate (b.powers.length - a.powers.length) 0
  let r := mulLoop powers 0 b.powers ((a.powers.drop 1).sum) (a.coefficient * b.coefficient)
  ⟨r.2, r.1⟩

/-- The same loop as `mulLoop`, but modelling the two partial operations of
the Rust source: the index read `powers[i + 1]` (panic when out of bounds)
and the unsigned subtraction `n_variables -= powers[i + 1]` (panic on
underflow in debug builds).  `none` is a panic. -/
def mulLoopChecked : List Nat → Nat → List Nat → Nat → Int → Option (List Nat × Int)
  | powers, _, [], _, coefficient => some (powers, coefficient)
  | powers, i, power :: rest, n_variables, coefficient =>
    match powers.get? i with
    | none => none
    | some pi =>
      let powers' := powers.set i (pi + power)
      let coefficient' :=
        if n_variables % 2 ≠ 0 ∧ power % 2 ≠ 0 then -coefficient else coefficient
      if 0 < n_variables then
        match powers'.get? (i + 1) with
        | none => none
        | some q =>
          if q ≤ n_variables then
            mulLoopChecked powers' (i + 1) rest (n_variables - q) coefficient'
          else none
      else mulLoopChecked powers' (i + 1) rest n_variables coefficient'

/-- Checked monomial multiplication: `some` exactly when no indexing or
subtraction inside the loop can fault. -/
def OddMonomial.mulChecked (a b : OddMonomial) : Option OddMonomial :=
  let powers := a.powers ++ List.replicate (b.powers.length - a.powers.length) 0
  (mulLoopChecked powers 0 b.powers ((a.powers.drop 1).sum)
      (a.coefficient * b.coefficient)).map (fun r => ⟨r.2, r.1⟩)

/-- Index-wise sum of two power vectors, keeping the tail of the longer
one (the zero-padded index-wise sum, represented at length
`max a.length b.length`). -/
def zipAddKeep : List Nat → List Nat → List Nat
  | as, [] => as
  | [], bs => bs
  | a :: as, b :: bs => (a + b) :: zipAddKeep as bs

/-- The index-wise sum of the two zero-padded power vectors, written as the
specification describes it: pad both vectors to the common length, then add
index-wise. -/
def paddedSum (a b : List Nat) : List Nat :=
  let L := max a.length b.length
  List.zipWith (· + ·)
    (a ++ List.replicate (L - a.length) 0)
    (b ++ List.replicate (L - b.length) 0)

/-- The sign scan exactly as the specification words it: `aNext` is the
(zero-padded) sequence of `A`'s powers from position `i + 1` on, `r` the
running count.  At a position with `B`-power `p` the sign flips iff `r` is
odd and `p` is odd; afterwards the power `A` contributes at position
`i + 1` is subtracted from `r`. -/
def scanSign : List Nat → List Nat → Nat → Int
  | _, [], _ => 1
  | aNext, p :: bs, r =>
    (if r % 2 = 1 ∧ p % 2 = 1 then (-1 : Int) else 1) *
      scanSign aNext.tail bs (r - aNext.headD 0)

/-- The claimed sign of `A * B`: scan `B`'s power vector with the running
count started at the sum of `A`'s powers at indices `≥ 1`. -/
def claimSign (a b : OddMonomial) : Int :=
  scanSign (a.powers.drop 1) b.powers ((a.powers.drop 1).sum)

/-- Number of "crossings": `crossSum as bs = Σ_i bs_i * (Σ_{j ≥ i} as_j)`,
so `crossSum (A.drop 1) B = Σ_{i < j} B_i * A_j`. -/
def crossSum : List Nat → List Nat → Nat
  | _, [] => 0
  | as, p :: bs => p * as.sum + crossSum as.tail bs

/-- `Iterator::position`: index of the first element satisfying `f`. -/
def positionBy {α : Type} (f : α → Bool) : List α → Option Nat
  | [] => none
  | x :: xs => if f x then some 0 else (positionBy f xs).map (· + 1)

/-- The zero-padded support comparison used inside `add_monomial`
(`src/polynomial.rs`, lines 280-284): compare `get(i).unwrap_or(&0)`
index-wise up to the longer length. -/
def supportEq (a b : List Nat) : Bool :=
  (List.range (max a.length b.length)).all (fun i => a.getD i 0 == b.getD i 0)

/-- An odd polynomial: its list of terms (`src/polynomial.rs`,
`OddPolynomial`). -/
structure OddPolynomial where
  terms : List OddMonomial
deriving DecidableEq, Repr

/-- `OddPolynomial::new`: the empty (zero) polynomial. -/
def OddPolynomial.new : OddPolynomial := ⟨[]⟩

/-- `OddPolynomial::from_monomial`: a zero monomial gives the empty
polynomial. -/
def OddPolynomial.from_monomial (monomial : OddMonomial) : OddPolynomial :=
  if monomial.is_zero then OddPolynomial.new else ⟨[monomial]⟩

/-- `OddPolynomial::add_monomial` (`src/polynomial.rs`, lines 271-295):
merge into an existing term of equal zero-padded support (deleting it if
the sum of coefficients is 0) or append. -/
def OddPolynomial.add_monomial (p : OddPolynomial) (other : OddMonomial) : OddPolynomial :=
  if other.is_zero then p
  else
    match positionBy (fun term => supportEq term.powers other.powers) p.terms with
    | some pos =>
      let term := p.terms.getD pos ⟨0, []⟩
      let updated : OddMonomial := ⟨term.coefficient + other.coefficient, term.powers⟩
      if updated.is_zero then ⟨p.terms.eraseIdx pos⟩ else ⟨p.terms.set pos updated⟩
    | none => ⟨p.terms ++ [other]⟩

/-- `impl Add for &OddPolynomial`: fold the right operand's terms into a
clone of the left via `add_monomial`. -/
def OddPolynomial.add (p q : OddPolynomial) : OddPolynomial :=
  q.terms.foldl (fun poly term => poly.add_monomial term) p

/-- `impl Mul for &OddPolynomial`: fold `add_monomial (term1 * term2)`
over the cross product of the term lists, starting from zero. -/
def OddPolynomial.mul (p q : OddPolynomial) : OddPolynomial :=
  p.terms.foldl
    (fun poly term1 =>
      q.terms.foldl (fun poly term2 => poly.add_monomial (term1.mul term2)) poly)
    OddPolynomial.new

/-- `Vec::swap` on a power vector (both indices in bounds in every use). -/
def swapIdx (l : List Nat) (i j : Nat) : List Nat :=
  (l.set i (l.getD j 0)).set j (l.getD i 0)

/-- `OddMonomial::ss` (`\sso_n`): zero-pad to length `n + 1`, negate the
coefficient iff `powers[n-1] + powers[n]` is odd, then swap those two
entries. -/
def OddMonomial.ss (m : OddMonomial) (n : Nat) : OddMonomial :=
  let powers := m.powers ++ List.replicate (n + 1 - m.powers.length) 0
  ⟨if (powers.getD (n - 1) 0 + powers.getD n 0) % 2 ≠ 0 then -m.coefficient else m.coefficient,
   swapIdx powers (n - 1) n⟩

/-- `OddMonomial::sb` (`\sbo_n`): zero-pad to length `n`, negate the
coefficient iff `powers[n-1]` is odd. -/
def OddMonomial.sb (m : OddMonomial) (n : Nat) : OddMonomial :=
  let powers := m.powers ++ List.replicate (n - m.powers.length) 0
  ⟨if powers.getD (n - 1) 0 % 2 ≠ 0 then -m.coefficient else m.coefficient, powers⟩

/-- `OddMonomial::sd` (`\sdo_n`): zero-pad to length `n + 1` and swap
`powers[n-2]` with `powers[n-1]`. -/
def OddMonomial.sd (m : OddMonomial) (n : Nat) : OddMonomial :=
  let powers := m.powers ++ List.replicate (n + 1 - m.powers.length) 0
  ⟨m.coefficient, swapIdx powers (n - 2) (n - 1)⟩

/-- `g.powers[pos] -= 1`: decrement the power at `pos`. -/
def decAt (l : List Nat) (pos : Nat) : List Nat :=
  l.set pos (l.getD pos 0 - 1)

/-- `OddMonomial::ps` (`\pso_n`), with the recursion depth made explicit:
the source recurses on the monomial `g` obtained by decrementing the first
nonzero power, which strictly decreases the total exponent, so a fuel of
`m.powers.sum` is exact.  `psGo` is proved to satisfy the source's
recursion verbatim (see `ps_rec`/`C9`). -/
def psGo : Nat → OddMonomial → Nat → OddPolynomial
  | fuel, m, n =>
    match positionBy (fun p => p != 0) m.powers with
    | none => OddPolynomial.new
    | some pos =>
      match fuel with
      | 0 => OddPolynomial.new
      | fuel + 1 =>
        let g : OddMonomial := ⟨m.coefficient, decAt m.powers pos⟩
        let ps_pos : Int := if pos = n ∨ pos = n - 1 then 1 else 0
        (OddPolynomial.from_monomial ⟨g.coefficient * ps_pos, g.powers⟩).add
          ((OddPolynomial.from_monomial ((OddMonomial.x (pos + 1)).ss n)).mul (psGo fuel g n))

/-- `OddMonomial::ps`. -/
def OddMonomial.ps (m : OddMonomial) (n : Nat) : OddPolynomial :=
  psGo m.powers.sum m n

/-- `OddMonomial::pb` (`\pbo_n`), fueled like `psGo`. -/
def pbGo : Nat → OddMonomial → Nat → OddPolynomial
  | fuel, m, n =>
    match positionBy (fun p => p != 0) m.powers with
    | none => OddPolynomial.new
    | some pos =>
      match fuel with
      | 0 => OddPolynomial.new
      | fuel + 1 =>
        let g : OddMonomial := ⟨m.coefficient, decAt m.powers pos⟩
        let ps_pos : Int := if pos = n - 1 then 1 else 0
        (OddPolynomial.from_monomial ⟨g.coefficient * ps_pos, g.powers⟩).add
          ((OddPolynomial.from_monomial ((OddMonomial.x (pos + 1)).sb n)).mul (pbGo fuel g n))

/-- `OddMonomial::pb`. -/
def OddMonomial.pb (m : OddMonomial) (n : Nat) : OddPolynomial :=
  pbGo m.powers.sum m n

/-- `OddMonomial::pd` (`\pdo_n`), fueled like `psGo`. -/
def pdGo : Nat → OddMonomial → Nat → OddPolynomial
  | fuel, m, n =>
    match positionBy (fun p => p != 0) m.powers with
    | none => OddPolynomial.new
    | some pos =>
      match fuel with
      | 0 => OddPolynomial.new
      | fuel + 1 =>
        let g : OddMonomial := ⟨m.coefficient, decAt m.powers pos⟩
        let ps_pos : Int := if pos = n - 2 then 1 else if pos = n - 1 then -1 else 0
        (OddPolynomial.from_monomial ⟨g.coefficient * ps_pos, g.powers⟩).add
          ((OddPolynomial.from_monomial ((OddMonomial.x (pos + 1)).sd n)).mul (pdGo fuel g n))

/-- `OddMonomial::pd`. -/
def OddMonomial.pd (m : OddMonomial) (n : Nat) : OddPolynomial :=
  pdGo m.powers.sum m n

/-- `OddPolynomial::ps`: linear extension, folding the per-term results
together by polynomial addition. -/
def OddPolynomial.ps (p : OddPolynomial) (n : Nat) : OddPolynomial :=
  p.terms.foldl (fun res term => res.add (term.ps n)) OddPolynomial.new

/-- `OddPolynomial::pb`: linear extension. -/
def OddPolynomial.pb (p : OddPolynomial) (n : Nat) : OddPolynomial :=
  p.terms.foldl (fun res term => res.add (term.pb n)) OddPolynomial.new

/-- `OddPolynomial::pd`: linear extension. -/
def OddPolynomial.pd (p : OddPolynomial) (n : Nat) : OddPolynomial :=
  p.terms.foldl (fun res term => res.add (term.pd n)) OddPolynomial.new

/-- The source's recursion equation for `OddMonomial::ps`
(`src/polynomial.rs`, lines 93-108), as a proposition about the embedded
`ps`. -/
def PsRec (m : OddMonomial) (n : Nat) : Prop :=
  match positionBy (fun p => p != 0) m.powers with
  | none => m.ps n = OddPolynomial.new
  | some pos =>
    m.ps n =
      (OddPolynomial.from_monomial
          ⟨m.coefficient * (if pos = n ∨ pos = n - 1 then 1 else 0), decAt m.powers pos⟩).add
        ((OddPolynomial.from_monomial ((OddMonomial.x (pos + 1)).ss n)).mul
          ((⟨m.coefficient, decAt m.powers pos⟩ : OddMonomial).ps n))

/-- The source's recursion equation for `OddMonomial::pb`. -/
def PbRec (m : OddMonomial) (n : Nat) : Prop :=
  match positionBy (fun p => p != 0) m.powers with
  | none => m.pb n = OddPolynomial.new
  | some pos =>
    m.pb n =
      (OddPolynomial.from_monomial
          ⟨m.coefficient * (if pos = n - 1 then 1 else 0), decAt m.powers pos⟩).add
        ((OddPolynomial.from_monomial ((OddMonomial.x (pos + 1)).sb n)).mul
          ((⟨m.coefficient, decAt m.powers pos⟩ : OddMonomial).pb n))

/-- The source's recursion equation for `OddMonomial::pd`. -/
def PdRec (m : OddMonomial) (n : Nat) : Prop :=
  match positionBy (fun p => p != 0) m.powers with
  | none => m.pd n = OddPolynomial.new
  | some pos =>
    m.pd n =
      (OddPolynomial.from_monomial
          ⟨m.coefficient * (if pos = n - 2 then 1 else if pos = n - 1 then -1 else 0),
           decAt m.powers pos⟩).add
        ((OddPolynomial.from_monomial ((OddMonomial.x (pos + 1)).sd n)).mul
          ((⟨m.coefficient, decAt m.powers pos⟩ : OddMonomial).pd n))

/-- The canonical-form invariant of the spec: no term has coefficient 0,
and no two terms have equal zero-padded power vectors. -/
def NormalForm (p : OddPolynomial) : Prop :=
  (∀ t ∈ p.terms, t.coefficient ≠ 0) ∧
  p.terms.Pairwise (fun s t => supportEq s.powers t.powers = false)

/-- The error type of the library (`src/lib.rs`, `ErrorKind`). -/
inductive Error where
  | parsePolynomial (s : List Char) : Error
deriving DecidableEq, Repr

/-- Split a character list at every position where `f` holds, keeping
empty pieces (like Rust's `str::split`). -/
def splitPred (f : Char → Bool) : List Char → List (List Char)
  | [] => [[]]
  | c :: rest =>
    let ps := splitPred f rest
    if f c then [] :: ps else (c :: ps.headD []) :: ps.tail

/-- Rust `str::split(sep)`. -/
def splitOnChar (sep : Char) (s : List Char) : List (List Char) :=
  splitPred (fun c => c == sep) s

/-- Rust `str::split_whitespace`: split on whitespace and drop empty
pieces. -/
def splitWhite (s : List Char) : List (List Char) :=
  (splitPred Char.isWhitespace s).filter (fun t => !t.isEmpty)

/-- Numeric value of a decimal digit character. -/
def digitVal (c : Char) : Nat := c.toNat - 48

/-- Value of a nonempty all-digit character list (the common core of
Rust's integer `FromStr` implementations). -/
def digitsToNat (cs : List Char) : Option Nat :=
  if cs.isEmpty then none
  else if cs.all Char.isDigit then
    some (cs.foldl (fun a c => a * 10 + digitVal c) 0)
  else none

/-- Rust `i32::from_str`: optional sign, then decimal digits, value within
the `i32` range. -/
def parseI32 (s : List Char) : Option Int :=
  if s.headD ' ' = '-' then
    (digitsToNat s.tail).bind fun n =>
      if n ≤ 2147483648 then some (-(n : Int)) else none
  else if s.headD ' ' = '+' then
    (digitsToNat s.tail).bind fun n =>
      if n ≤ 2147483647 then some ((n : Int)) else none
  else
    (digitsToNat s).bind fun n =>
      if n ≤ 2147483647 then some ((n : Int)) else none

/-- Rust `u32::from_str`: optional `+`, then decimal digits, value within
the `u32` range. -/
def parseU32 (s : List Char) : Option Nat :=
  if s.headD ' ' = '+' then
    (digitsToNat s.tail).bind fun n => if n ≤ 4294967295 then some n else none
  else
    (digitsToNat s).bind fun n => if n ≤ 4294967295 then some n else none

/-- Parse the exponent tokens of one term, failing on the first bad
token. -/
def parsePowers : List (List Char) → Option (List Nat)
  | [] => some []
  | t :: rest =>
    match parseU32 t with
    | none => none
    | some p => (parsePowers rest).map (p :: ·)

/-- The term loop of `FromStr for OddPolynomial` (`src/polynomial.rs`,
lines 321-345).  `none` models the `expect("empty term")` panic on a term
with no tokens; `some (Except.error _)` is the `ParseError` returned to
the caller. -/
def fromStrGo : List (List Char) → OddPolynomial → Option (Except Error OddPolynomial)
  | [], poly => some (Except.ok poly)
  | term :: rest, poly =>
    match splitWhite term with
    | [] => none
    | ctok :: ptoks =>
      match parseI32 ctok with
      | none => some (Except.error (Error.parsePolynomial "invalid coefficient".toList))
      | some coefficient =>
        match parsePowers ptoks with
        | none => some (Except.error (Error.parsePolynomial "invalid power".toList))
        | some powers => fromStrGo rest (poly.add_monomial ⟨coefficient, powers⟩)

/-- `FromStr for OddPolynomial`: split the input on `/` and read each term
as whitespace-separated tokens (coefficient first, then exponents). -/
def OddPolynomial.from_str (input : List Char) : Option (Except Error OddPolynomial) :=
  fromStrGo (splitOnChar '/' input) OddPolynomial.new

/-- The polynomials producible by the public operations of the library:
construction from a monomial, successful parsing, addition,
multiplication, and the three operator families. -/
inductive Produced : OddPolynomial → Prop where
  | from_monomial (m : OddMonomial) : Produced (OddPolynomial.from_monomial m)
  | parsed (s : List Char) (p : OddPolynomial) :
      OddPolynomial.from_str s = some (Except.ok p) → Produced p
  | add (p q : OddPolynomial) : Produced p → Produced q → Produced (p.add q)
  | mul (p q : OddPolynomial) : Produced p → Produced q → Produced (p.mul q)
  | ps (p : OddPolynomial) (n : Nat) : Produced p → Produced (p.ps n)
  | pb (p : OddPolynomial) (n : Nat) : Produced p → Produced (p.pb n)
  | pd (p : OddPolynomial) (n : Nat) : Produced p → Produced (p.pd n)

/-- Big-endian decimal digits of `n`, with explicit fuel (Rust's integer
`Display`). -/
def natDigits : Nat → Nat → List Char
  | 0, _ => []
  | fuel + 1, n =>
    if n < 10 then [Char.ofNat (48 + n)]
    else natDigits fuel (n / 10) ++ [Char.ofNat (48 + n % 10)]

/-- Decimal representation of a natural number. -/
def natRepr (n : Nat) : List Char := natDigits (n + 1) n

/-- Rust `i32` `Display`: a `-` sign followed by the decimal digits of the
absolute value. -/
def intRepr (c : Int) : List Char :=
  if c < 0 then '-' :: natRepr (-c).toNat else natRepr c.toNat

/-- One `x_{i+1}^{p}` factor as written by `fmt_no_sign`. -/
def xTerm (i p : Nat) : List Char :=
  'x' :: '_' :: (natRepr (i + 1) ++ '^' :: natRepr p)

/-- `Iterator::rposition`: index of the last element satisfying the
predicate. -/
def rpositionNonzero (l : List Nat) : Option Nat :=
  (positionBy (fun p => p != 0) l.reverse).map (fun i => l.length - 1 - i)

/-- `OddMonomial::fmt_no_sign` (`src/polynomial.rs`, lines 152-180). -/
def OddMonomial.fmt_no_sign (m : OddMonomial) : List Char :=
  if m.is_zero then ['0']
  else
    match rpositionNonzero m.powers with
    | none => intRepr m.coefficient
    | some pos =>
      (if m.coefficient ≠ 1 ∧ m.coefficient ≠ -1 then
        if m.coefficient < 0 then intRepr (-m.coefficient) else intRepr m.coefficient
      else [])
      ++ ((m.powers.enum.take pos).map
            (fun ip => if ip.2 ≠ 0 then xTerm ip.1 ip.2 ++ [' '] else [])).flatten
      ++ xTerm pos (m.powers.getD pos 0)

/-- `Display for OddMonomial`: a `-` for a negative coefficient, then the
unsigned body. -/
def OddMonomial.display (m : OddMonomial) : List Char :=
  (if m.coefficient < 0 then ['-'] else []) ++ m.fmt_no_sign

/-- `Display for OddPolynomial` (`src/polynomial.rs`, lines 298-316). -/
def OddPolynomial.display (p : OddPolynomial) : List Char :=
  match p.terms with
  | [] => ['0']
  | t :: rest =>
    t.display ++
      (rest.map (fun term =>
        (if term.coefficient < 0 then " - ".toList else " + ".toList) ++ term.fmt_no_sign)).flatten

/-- The nonzero `x_{i+1}^{p}` factors of a power vector, in order. -/
def xFactors (powers : List Nat) : List (List Char) :=
  powers.enum.filterMap (fun ip => if ip.2 ≠ 0 then some (xTerm ip.1 ip.2) else none)

/-- The term body as the amended specification words it: `0` for a zero
coefficient; the signed coefficient alone when every exponent is zero
(which duplicates the `-` of a negative term's header); otherwise the
unsigned numeral (omitted when the coefficient is `1` or `-1`) followed by
the space-separated nonzero `x_{i}^{p}` factors. -/
def specTermBody (m : OddMonomial) : List Char :=
  if m.coefficient = 0 then ['0']
  else if m.powers.all (fun p => p == 0) then intRepr m.coefficient
  else
    (if m.coefficient = 1 ∨ m.coefficient = -1 then [] else natRepr m.coefficient.natAbs)
    ++ List.intercalate [' '] (xFactors m.powers)

/-- The whole formatted polynomial as the amended specification words it. -/
def specDisplay (p : OddPolynomial) : List Char :=
  match p.terms with
  | [] => ['0']
  | t :: rest =>
    ((if t.coefficient < 0 then ['-'] else []) ++ specTermBody t) ++
      (rest.map (fun term =>
        (if term.coefficient < 0 then " - ".toList else " + ".toList) ++ specTermBody term)).flatten

/-- Strip trailing zeros: the canonical representative of a zero-padded
power vector (its support). -/
def trimZeros (l : List Nat) : List Nat :=
  (l.reverse.dropWhile (fun p => p == 0)).reverse

/-- The canonical (support, coefficient) pair of a term. -/
def canonKey (m : OddMonomial) : List Nat × Int :=
  (trimZeros m.powers, m.coefficient)

/-- The canonical multiset of (support, coefficient) pairs of a
polynomial. -/
def canonMultiset (p : OddPolynomial) : Multiset (List Nat × Int) :=
  (p.terms.map canonKey : List (List Nat × Int))

/-- Modelled from the spec: `PartialEq`/`Eq` for `OddPolynomial` is not in
the reviewed source (`#[derive(Clone,Debug,Hash)]` derives no equality,
yet `main.rs` requires `Eq` for its `HashSet`).  The spec says equality
"must be based on the canonical multiset of (support, coefficient)
pairs", so the missing comparison is modelled exactly that way. -/
def specPolyEq (p q : OddPolynomial) : Prop :=
  canonMultiset p = canonMultiset q

/-- The stream of primitive values `#[derive(Hash)]` feeds to the hasher
for an `OddMonomial`: the `i32` coefficient, then the `Vec` length, then
its elements. -/
def OddMonomial.hashStream (m : OddMonomial) : List Int :=
  m.coefficient :: (m.powers.length : Int) :: m.powers.map Int.ofNat

/-- The stream of primitive values `#[derive(Hash)]` feeds to the hasher
for an `OddPolynomial`: the `Vec` length, then each term's stream in term
order.  Two values receive equal hash values exactly when their streams
coincide. -/
def OddPolynomial.hashStream (p : OddPolynomial) : List Int :=
  (p.terms.length : Int) :: (p.terms.map OddMonomial.hashStream).flatten

/-- `HashSet::insert`, with the set modelled as its list of elements in
insertion order. -/
def insertP (l : List OddPolynomial) (p : OddPolynomial) : List OddPolynomial :=
  if p ∈ l then l else l ++ [p]

/-- One round of the closure enumeration (`src/main.rs`, lines 125-136):
for every polynomial in the set, insert `poly.ps(k)` for `1 ≤ k < n` and
`poly.pd(n)` into a temporary set, then merge the temporary set into the
main set. -/
def schudRound (n : Nat) (schuberts : List OddPolynomial) : List OddPolynomial :=
  let new := schuberts.foldl
    (fun acc poly =>
      insertP ((List.range' 1 (n - 1)).foldl (fun a k => insertP a (poly.ps k)) acc) (poly.pd n))
    []
  new.foldl insertP schuberts

/-- The closure enumeration (`src/main.rs`, `schud`), parameterized by the
seed monomial and the round count.  (`OddMonomial::deltad` and
`OddMonomial::degree`, which produce the seed and its total degree, are
absent from the reviewed source; the spec directs treating the seed as an
external input.) -/
def schud (seed : OddMonomial) (degree n : Nat) : List OddPolynomial :=
  (List.range degree).foldl (fun s _ => schudRound n s)
    (insertP [] (OddPolynomial.from_monomial seed))

/-! ## List helpers -/

theorem getD_set_ne (l : List Nat) (i j : Nat) (a : Nat) (h : i ≠ j) :
    (l.set i a).getD j 0 = l.getD j 0 := by
  simp [List.getD_eq_getElem?_getD, List.getElem?_set_ne h]

theorem sum_drop_getD (l : List Nat) (j : Nat) :
    (l.drop j).sum = l.getD j 0 + (l.drop (j + 1)).sum := by
  induction l generalizing j with
  | nil => simp
  | cons x xs ih =>
    cases j with
    | zero => simp [List.getD]
    | succ j => simpa using ih j

theorem drop_eq_getD_cons (l : List Nat) (i : Nat) (h : i < l.length) :
    l.drop i = l.getD i 0 :: l.drop (i + 1) := by
  induction l generalizing i with
  | nil => simp at h
  | cons x xs ih =>
    cases i with
    | zero => simp [List.getD]
    | succ i => simpa using ih i (by simpa using h)

theorem take_set_succ (l : List Nat) (i : Nat) (a : Nat) (h : i < l.length) :
    (l.set i a).take (i + 1) = l.take i ++ [a] := by
  induction l generalizing i with
  | nil => simp at h
  | cons x xs ih =>
    cases i with
    | zero => simp
    | succ i => simpa using ih i (by simpa using h)

theorem headD_drop (l : List Nat) (j : Nat) :
    (l.drop j).headD 0 = l.getD j 0 := by
  simp [List.headD_eq_head?, List.head?_drop, List.getD_eq_getElem?_getD]

theorem drop_set_of_lt (l : List Nat) (i j : Nat) (a : Nat) (h : i < j) :
    (l.set i a).drop j = l.drop j := by
  simp [List.drop_set, h]

theorem zipAddKeep_nil (bs : List Nat) : zipAddKeep [] bs = bs := by
  cases bs <;> rfl

theorem zipAddKeep_nil_right (as : List Nat) : zipAddKeep as [] = as := by
  cases as <;> rfl

/-! ## The monomial multiplication loop -/

theorem mulLoop_spec (bs : List Nat) :
    ∀ (powers : List Nat) (i : Nat) (c : Int), i + bs.length ≤ powers.length →
    mulLoop powers i bs ((powers.drop (i + 1)).sum) c =
      (powers.take i ++ zipAddKeep (powers.drop i) bs,
       scanSign (powers.drop (i + 1)) bs ((powers.drop (i + 1)).sum) * c) := by
  induction bs with
  | nil =>
    intro powers i c _
    simp [mulLoop, scanSign, zipAddKeep_nil_right]
  | cons p rest ih =>
    intro powers i c hlen
    have hi : i < powers.length := by simp at hlen; omega
    set nv := (powers.drop (i + 1)).sum with hnv
    have hsum : nv = powers.getD (i + 1) 0 + (powers.drop (i + 1 + 1)).sum := by
      rw [hnv, sum_drop_getD]
    set powers' := powers.set i (powers.getD i 0 + p) with hpowers'
    have hget : powers'.getD (i + 1) 0 = powers.getD (i + 1) 0 := by
      rw [hpowers']; exact getD_set_ne _ _ _ _ (by omega)
    have hdrop1 : powers'.drop (i + 1) = powers.drop (i + 1) := by
      rw [hpowers']; exact drop_set_of_lt _ _ _ _ (by omega)
    have hdrop2 : powers'.drop (i + 1 + 1) = powers.drop (i + 1 + 1) := by
      rw [hpowers']; exact drop_set_of_lt _ _ _ _ (by omega)
    have hnv' : (if 0 < nv then nv - powers'.getD (i + 1) 0 else nv) =
        (powers'.drop (i + 1 + 1)).sum := by
      rw [hget, hdrop2]
      by_cases h0 : 0 < nv
      · simp only [h0, if_true]; omega
      · simp only [h0, if_false]; omega
    have step : mulLoop powers i (p :: rest) nv c =
        mulLoop powers' (i + 1) rest
          (if 0 < nv then nv - powers'.getD (i + 1) 0 else nv)
          (if nv % 2 ≠ 0 ∧ p % 2 ≠ 0 then -c else c) := rfl
    rw [step, hnv',
      ih powers' (i + 1) _ (by rw [hpowers']; simp at hlen ⊢; omega)]
    rw [Prod.mk.injEq]
    refine ⟨?_, ?_⟩
    · -- power vectors agree
      rw [hdrop1, hpowers', take_set_succ powers i _ hi,
        drop_eq_getD_cons powers i hi]
      show (powers.take i ++ [powers.getD i 0 + p]) ++
          zipAddKeep (powers.drop (i + 1)) rest =
        powers.take i ++
          ((powers.getD i 0 + p) :: zipAddKeep (powers.drop (i + 1)) rest)
      simp
    · -- signs agree
      rw [hdrop2]
      have hrhs : scanSign (powers.drop (i + 1)) (p :: rest) nv =
          (if nv % 2 = 1 ∧ p % 2 = 1 then (-1 : Int) else 1) *
            scanSign (powers.drop (i + 1)).tail rest
              (nv - (powers.drop (i + 1)).headD 0) := by
        conv_lhs => rw [scanSign]
      rw [hrhs, List.tail_drop, headD_drop]
      have harg : nv - powers.getD (i + 1) 0 = (powers.drop (i + 1 + 1)).sum := by
        omega
      rw [harg]
      by_cases h : nv % 2 = 1 ∧ p % 2 = 1
      · have h2 : nv % 2 ≠ 0 ∧ p % 2 ≠ 0 := by omega
        rw [if_pos h, if_pos h2]; ring
      · have h2 : ¬(nv % 2 ≠ 0 ∧ p % 2 ≠ 0) := by omega
        rw [if_neg h, if_neg h2]; ring

theorem sum_drop_one_pad (l : List Nat) (k : Nat) :
    ((l ++ List.replicate k 0).drop 1).sum = (l.drop 1).sum := by
  cases l with
  | nil => simp [List.sum_replicate]
  | cons x xs => simp

theorem drop_one_pad (l : List Nat) (k : Nat) :
    (l ++ List.replicate k 0).drop 1 = l.drop 1 ++ List.replicate (k - (1 - l.length)) 0 := by
  cases l with
  | nil =>
    cases k with
    | zero => simp
    | succ k => simp [List.replicate_succ]
  | cons x xs => simp

theorem scanSign_pad (bs : List Nat) :
    ∀ (as : List Nat) (k r : Nat),
    scanSign (as ++ List.replicate k 0) bs r = scanSign as bs r := by
  induction bs with
  | nil => intro as k r; rfl
  | cons p rest ih =>
    intro as k r
    rw [scanSign, scanSign]
    cases as with
    | nil =>
      cases k with
      | zero => simp
      | succ k =>
        simp only [List.nil_append, List.replicate_succ, List.tail_cons, List.headD_cons,
          List.tail_nil, List.headD_nil]
        rw [show (List.replicate k 0 : List Nat) = [] ++ List.replicate k 0 by simp, ih]
    | cons a as =>
      simp only [List.cons_append, List.tail_cons, List.headD_cons]
      rw [ih as k (r - a)]

theorem zipAddKeep_pad (a : List Nat) :
    ∀ (b : List Nat), zipAddKeep (a ++ List.replicate (b.length - a.length) 0) b =
      zipAddKeep a b := by
  induction a with
  | nil =>
    intro b
    rw [zipAddKeep_nil]
    induction b with
    | nil => rfl
    | cons y ys ihb => simpa [List.replicate_succ, zipAddKeep] using ihb
  | cons x xs ih =>
    intro b
    cases b with
    | nil => simp [zipAddKeep_nil_right]
    | cons y ys =>
      simp only [List.cons_append, List.length_cons,
        show ys.length + 1 - (xs.length + 1) = ys.length - xs.length by omega]
      show (x + y) :: zipAddKeep (xs ++ List.replicate (ys.length - xs.length) 0) ys =
        (x + y) :: zipAddKeep xs ys
      rw [ih ys]

/-- The closed form of monomial multiplication: the power vector is the
index-wise sum of the power vectors and the coefficient is the product of
the coefficients times the scanned sign. -/
theorem mul_spec (a b : OddMonomial) :
    a.mul b = ⟨a.coefficient * b.coefficient * claimSign a b,
               zipAddKeep a.powers b.powers⟩ := by
  have hlen : 0 + b.powers.length ≤
      (a.powers ++ List.replicate (b.powers.length - a.powers.length) 0).length := by
    simp; omega
  have key := mulLoop_spec b.powers
    (a.powers ++ List.replicate (b.powers.length - a.powers.length) 0) 0
    (a.coefficient * b.coefficient) hlen
  simp only [Nat.zero_add, List.take_zero, List.drop_zero, List.nil_append] at key
  rw [sum_drop_one_pad, drop_one_pad, scanSign_pad, zipAddKeep_pad] at key
  show (⟨(mulLoop (a.powers ++ List.replicate (b.powers.length - a.powers.length) 0) 0
        b.powers ((a.powers.drop 1).sum) (a.coefficient * b.coefficient)).2,
      (mulLoop (a.powers ++ List.replicate (b.powers.length - a.powers.length) 0) 0
        b.powers ((a.powers.drop 1).sum) (a.coefficient * b.coefficient)).1⟩ : OddMonomial) = _
  rw [key]
  show OddMonomial.mk
      (scanSign (a.powers.drop 1) b.powers ((a.powers.drop 1).sum) *
        (a.coefficient * b.coefficient))
      (zipAddKeep a.powers b.powers) = _
  rw [claimSign]
  congr 1
  ring


/-! ## Sign characterization and associativity -/

theorem sum_tail_eq (as : List Nat) : as.sum - as.headD 0 = as.tail.sum := by
  cases as <;> simp

theorem stepSign_eq (p r : Nat) :
    (if r % 2 = 1 ∧ p % 2 = 1 then (-1 : Int) else 1) = (-1 : Int) ^ (p * r) := by
  by_cases h : r % 2 = 1 ∧ p % 2 = 1
  · rw [if_pos h]
    have hodd : Odd (p * r) :=
      Nat.odd_mul.mpr ⟨Nat.odd_iff.mpr h.2, Nat.odd_iff.mpr h.1⟩
    rw [hodd.neg_one_pow]
  · rw [if_neg h]
    have heven : Even (p * r) := by
      rcases Nat.even_or_odd p with hp | hp
      · exact Nat.even_mul.mpr (Or.inl hp)
      · rcases Nat.even_or_odd r with hr | hr
        · exact Nat.even_mul.mpr (Or.inr hr)
        · exact absurd ⟨Nat.odd_iff.mp hr, Nat.odd_iff.mp hp⟩ h
    rw [heven.neg_one_pow]

theorem scanSign_crossSum (bs : List Nat) :
    ∀ as : List Nat, scanSign as bs as.sum = (-1 : Int) ^ crossSum as bs := by
  induction bs with
  | nil => intro as; simp [scanSign, crossSum]
  | cons p rest ih =>
    intro as
    rw [scanSign, crossSum, sum_tail_eq, ih as.tail, stepSign_eq, pow_add]

theorem claimSign_eq (a b : OddMonomial) :
    claimSign a b = (-1 : Int) ^ crossSum (a.powers.drop 1) b.powers := by
  rw [claimSign, scanSign_crossSum]

theorem zipAddKeep_sum (a : List Nat) : ∀ b : List Nat,
    (zipAddKeep a b).sum = a.sum + b.sum := by
  induction a with
  | nil => intro b; rw [zipAddKeep_nil]; simp
  | cons x xs ih =>
    intro b
    cases b with
    | nil => simp [zipAddKeep_nil_right]
    | cons y ys =>
      show ((x + y) :: zipAddKeep xs ys).sum = _
      simp [ih ys]; ring

theorem zipAddKeep_tail (a b : List Nat) :
    (zipAddKeep a b).tail = zipAddKeep a.tail b.tail := by
  cases a with
  | nil => rw [zipAddKeep_nil, List.tail_nil, zipAddKeep_nil]
  | cons x xs =>
    cases b with
    | nil => simp [zipAddKeep_nil_right]
    | cons y ys => rfl

theorem zipAddKeep_assoc (a : List Nat) :
    ∀ b c : List Nat,
    zipAddKeep (zipAddKeep a b) c = zipAddKeep a (zipAddKeep b c) := by
  induction a with
  | nil => intro b c; rw [zipAddKeep_nil, zipAddKeep_nil]
  | cons x xs ih =>
    intro b c
    cases b with
    | nil => rw [zipAddKeep_nil_right, zipAddKeep_nil]
    | cons y ys =>
      cases c with
      | nil => rw [zipAddKeep_nil_right, zipAddKeep_nil_right]
      | cons z zs =>
        show (x + y + z) :: zipAddKeep (zipAddKeep xs ys) zs =
          (x + (y + z)) :: zipAddKeep xs (zipAddKeep ys zs)
        rw [ih ys zs, Nat.add_assoc]

theorem crossSum_add_right (b : List Nat) :
    ∀ (as c : List Nat),
    crossSum as (zipAddKeep b c) = crossSum as b + crossSum as c := by
  induction b with
  | nil =>
    intro as c
    rw [zipAddKeep_nil, show crossSum as ([] : List Nat) = 0 from rfl]
    omega
  | cons y ys ih =>
    intro as c
    cases c with
    | nil => rw [zipAddKeep_nil_right]; rfl
    | cons z zs =>
      show crossSum as ((y + z) :: zipAddKeep ys zs) = _
      rw [crossSum, ih as.tail zs, crossSum, crossSum]
      ring

theorem crossSum_add_left (c : List Nat) :
    ∀ (a b : List Nat),
    crossSum (zipAddKeep a b) c = crossSum a c + crossSum b c := by
  induction c with
  | nil => intro a b; rfl
  | cons p cs ih =>
    intro a b
    rw [crossSum, crossSum, crossSum, zipAddKeep_sum, zipAddKeep_tail, ih]
    ring

theorem zipWith_zero_add (b : List Nat) :
    List.zipWith (· + ·) (List.replicate b.length 0) b = b := by
  induction b with
  | nil => rfl
  | cons y ys ih => simpa [List.replicate_succ] using ih

theorem zipWith_add_zero (a : List Nat) :
    List.zipWith (· + ·) a (List.replicate a.length 0) = a := by
  induction a with
  | nil => rfl
  | cons x xs ih => simpa [List.replicate_succ] using ih

theorem zipAddKeep_eq_paddedSum (a : List Nat) :
    ∀ b : List Nat, zipAddKeep a b = paddedSum a b := by
  induction a with
  | nil =>
    intro b
    rw [zipAddKeep_nil]
    show b = List.zipWith (· + ·)
      ([] ++ List.replicate (max (List.length ([] : List Nat)) b.length - 0) 0)
      (b ++ List.replicate (max (List.length ([] : List Nat)) b.length - b.length) 0)
    simp [zipWith_zero_add]
  | cons x xs ih =>
    intro b
    cases b with
    | nil =>
      rw [zipAddKeep_nil_right]
      show x :: xs = List.zipWith (· + ·)
        ((x :: xs) ++ List.replicate (max (xs.length + 1) 0 - (xs.length + 1)) 0)
        ([] ++ List.replicate (max (xs.length + 1) 0 - 0) 0)
      have h := zipWith_add_zero (x :: xs)
      simp only [List.length_cons] at h
      simpa using h.symm
    | cons y ys =>
      show (x + y) :: zipAddKeep xs ys = _
      rw [ih ys]
      show (x + y) :: paddedSum xs ys = List.zipWith (· + ·)
        ((x :: xs) ++ List.replicate (max (xs.length + 1) (ys.length + 1) - (xs.length + 1)) 0)
        ((y :: ys) ++ List.replicate (max (xs.length + 1) (ys.length + 1) - (ys.length + 1)) 0)
      rw [show max (xs.length + 1) (ys.length + 1) - (xs.length + 1) =
            max xs.length ys.length - xs.length by omega,
          show max (xs.length + 1) (ys.length + 1) - (ys.length + 1) =
            max xs.length ys.length - ys.length by omega]
      rfl

/-! ## The checked multiplication loop never faults -/

theorem mulLoopChecked_spec (bs : List Nat) :
    ∀ (powers : List Nat) (i : Nat) (c : Int), i + bs.length ≤ powers.length →
    mulLoopChecked powers i bs ((powers.drop (i + 1)).sum) c =
      some (mulLoop powers i bs ((powers.drop (i + 1)).sum) c) := by
  induction bs with
  | nil => intro powers i c _; rfl
  | cons p rest ih =>
    intro powers i c hlen
    have hi : i < powers.length := by simp at hlen; omega
    set nv := (powers.drop (i + 1)).sum with hnv
    have hsum : nv = powers.getD (i + 1) 0 + (powers.drop (i + 1 + 1)).sum := by
      rw [hnv, sum_drop_getD]
    have hgop : powers.get? i = some (powers.getD i 0) := by
      rw [List.get?_eq_getElem?, List.getElem?_eq_getElem hi,
        List.getD_eq_getElem?_getD, List.getElem?_eq_getElem hi]
      rfl
    set powers' := powers.set i (powers.getD i 0 + p) with hpowers'
    have hdrop2 : powers'.drop (i + 1 + 1) = powers.drop (i + 1 + 1) := by
      rw [hpowers']; exact drop_set_of_lt _ _ _ _ (by omega)
    have hstepL : mulLoop powers i (p :: rest) nv c =
        mulLoop powers' (i + 1) rest
          (if 0 < nv then nv - powers'.getD (i + 1) 0 else nv)
          (if nv % 2 ≠ 0 ∧ p % 2 ≠ 0 then -c else c) := rfl
    rw [hstepL]
    simp only [mulLoopChecked, hgop]
    rw [← hpowers']
    by_cases h0 : 0 < nv
    · have hi1 : i + 1 < powers.length := by
        by_contra hle
        have hdn : powers.drop (i + 1) = [] := List.drop_eq_nil_of_le (by omega)
        rw [hnv, hdn] at h0
        simp at h0
      have hgetD : powers'.getD (i + 1) 0 = powers.getD (i + 1) 0 := by
        rw [hpowers']; exact getD_set_ne _ _ _ _ (by omega)
      have hi1' : i + 1 < powers'.length := by rw [hpowers']; simpa using hi1
      have hgop1 : powers'.get? (i + 1) = some (powers.getD (i + 1) 0) := by
        rw [List.get?_eq_getElem?, List.getElem?_eq_getElem hi1']
        rw [← List.getD_eq_getElem powers' 0 hi1', hgetD]
      have hq : powers.getD (i + 1) 0 ≤ nv := by omega
      simp only [if_pos h0, hgop1, if_pos hq, hgetD]
      have harg : nv - powers.getD (i + 1) 0 = (powers'.drop (i + 1 + 1)).sum := by
        rw [hdrop2]; omega
      rw [harg]
      exact ih powers' (i + 1) _ (by rw [hpowers']; simp at hlen ⊢; omega)
    · simp only [if_neg h0]
      have harg : nv = (powers'.drop (i + 1 + 1)).sum := by
        rw [hdrop2]; omega
      rw [harg]
      exact ih powers' (i + 1) _ (by rw [hpowers']; simp at hlen ⊢; omega)

/-! ## Claims C1, C6, C10 -/

/-- C1: for every pair of monomials `A` and `B`, the product `A * B` is the
monomial whose power vector is the index-wise sum of the two zero-padded
power vectors (`paddedSum`) and whose coefficient is
`A.coefficient * B.coefficient * sign`, where `sign` is computed by exactly
the specification's left-to-right scan of `B`'s power vector
(`claimSign`/`scanSign`): the running count starts as the sum of `A`'s
powers at indices `≥ 1`, the sign flips at a position iff the count and the
`B`-power there are both odd, and after each position the power `A`
contributes at the next position is subtracted from the count. -/
theorem C1_monomial_mul_powers_and_sign (a b : OddMonomial) :
    a.mul b = ⟨a.coefficient * b.coefficient * claimSign a b,
               paddedSum a.powers b.powers⟩ := by
  rw [mul_spec, zipAddKeep_eq_paddedSum]

/-- C6: monomial multiplication is associative: `(A*B)*C` and `A*(B*C)`
have equal coefficients and equal zero-padded power vectors. -/
theorem C6_monomial_mul_assoc (a b c : OddMonomial) :
    ((a.mul b).mul c).coefficient = (a.mul (b.mul c)).coefficient ∧
    ∀ i : Nat, ((a.mul b).mul c).powers.getD i 0 =
      (a.mul (b.mul c)).powers.getD i 0 := by
  have hpow : ((a.mul b).mul c).powers = (a.mul (b.mul c)).powers := by
    rw [mul_spec a b, mul_spec b c, mul_spec, mul_spec]
    exact zipAddKeep_assoc a.powers b.powers c.powers
  refine ⟨?_, fun i => by rw [hpow]⟩
  rw [mul_spec a b, mul_spec b c, mul_spec, mul_spec]
  simp only [claimSign_eq, List.drop_one]
  rw [zipAddKeep_tail, crossSum_add_left, crossSum_add_right, pow_add, pow_add]
  ring

/-- C10: monomial multiplication is total and never faults: running the
loop with every index read and unsigned subtraction checked
(`mulChecked`) always succeeds and returns the unchecked product.  (The
underlying invariant, proved in `mulLoopChecked_spec`, is that the running
counter always equals the sum of the working vector's entries at indices
`≥ i + 1`, so a positive counter guarantees the read at `i + 1` is in
bounds and the subtraction cannot underflow.) -/
theorem C10_mul_total_no_fault (a b : OddMonomial) :
    a.mulChecked b = some (a.mul b) := by
  have hlen : 0 + b.powers.length ≤
      (a.powers ++ List.replicate (b.powers.length - a.powers.length) 0).length := by
    simp; omega
  have key := mulLoopChecked_spec b.powers
    (a.powers ++ List.replicate (b.powers.length - a.powers.length) 0) 0
    (a.coefficient * b.coefficient) hlen
  simp only [Nat.zero_add] at key
  rw [sum_drop_one_pad] at key
  show (mulLoopChecked (a.powers ++ List.replicate (b.powers.length - a.powers.length) 0) 0
      b.powers ((a.powers.drop 1).sum) (a.coefficient * b.coefficient)).map
      (fun r => (⟨r.2, r.1⟩ : OddMonomial)) = _
  rw [key]
  rfl

/-! ## Claim C2: the normal-form invariant -/

theorem positionBy_none {α : Type} (f : α → Bool) :
    ∀ l : List α, positionBy f l = none → ∀ x ∈ l, f x = false := by
  intro l
  induction l with
  | nil => intro _ x hx; simp at hx
  | cons y ys ih =>
    intro h x hx
    rw [positionBy] at h
    by_cases hy : f y
    · rw [if_pos hy] at h; simp at h
    · rw [if_neg hy] at h
      rcases List.mem_cons.mp hx with rfl | hx
      · simpa using hy
      · exact ih (by rcases hpos : positionBy f ys with _ | m
                     · rfl
                     · rw [hpos] at h; simp at h) x hx

theorem positionBy_some {α : Type} (f : α → Bool) :
    ∀ (l : List α) (n : Nat), positionBy f l = some n →
    ∃ h : n < l.length, f (l.get ⟨n, h⟩) = true := by
  intro l
  induction l with
  | nil => intro n h; simp [positionBy] at h
  | cons y ys ih =>
    intro n h
    rw [positionBy] at h
    by_cases hy : f y
    · rw [if_pos hy] at h
      simp at h
      subst h
      exact ⟨by simp, by simpa using hy⟩
    · rw [if_neg hy] at h
      rcases hpos : positionBy f ys with _ | m
      · rw [hpos] at h; simp at h
      · rw [hpos] at h
        simp at h
        subst h
        obtain ⟨hm, hf⟩ := ih m hpos
        exact ⟨by simpa using hm, by simpa using hf⟩

theorem NormalForm_new : NormalForm OddPolynomial.new := by
  constructor <;> simp [OddPolynomial.new]

theorem NormalForm_from_monomial (m : OddMonomial) :
    NormalForm (OddPolynomial.from_monomial m) := by
  unfold OddPolynomial.from_monomial
  by_cases h : m.is_zero
  · simpa [h] using NormalForm_new
  · rw [if_neg h]
    constructor
    · intro t ht
      simp at ht
      subst ht
      simpa [OddMonomial.is_zero] using h
    · simp

theorem NormalForm_add_monomial (p : OddPolynomial) (m : OddMonomial)
    (hp : NormalForm p) : NormalForm (p.add_monomial m) := by
  unfold OddPolynomial.add_monomial
  by_cases hz : m.is_zero
  · simpa [hz] using hp
  rw [if_neg hz]
  rcases hpos : positionBy (fun term => supportEq term.powers m.powers) p.terms with _ | pos
  · -- no term with equal support: append
    simp only [hpos]
    have hall : ∀ t ∈ p.terms, supportEq t.powers m.powers = false :=
      positionBy_none _ _ hpos
    constructor
    · intro t ht
      rcases List.mem_append.mp ht with h | h
      · exact hp.1 t h
      · simp at h
        subst h
        simpa [OddMonomial.is_zero] using hz
    · rw [List.pairwise_append]
      exact ⟨hp.2, by simp, fun t ht u hu => by
        simp at hu; subst hu; exact hall t ht⟩
  · -- merge into the term at `pos`
    simp only [hpos]
    obtain ⟨hlt, _⟩ := positionBy_some _ _ _ hpos
    by_cases hz2 : (⟨(p.terms.getD pos ⟨0, []⟩).coefficient + m.coefficient,
        (p.terms.getD pos ⟨0, []⟩).powers⟩ : OddMonomial).is_zero
    · rw [if_pos hz2]
      exact ⟨fun t ht => hp.1 t ((List.eraseIdx_sublist _ _).subset ht),
        hp.2.sublist (List.eraseIdx_sublist _ _)⟩
    · rw [if_neg hz2]
      constructor
      · intro t ht
        rcases List.mem_or_eq_of_mem_set ht with h | h
        · exact hp.1 t h
        · subst h
          simpa [OddMonomial.is_zero] using hz2
      · have hpw := List.pairwise_iff_getElem.mp hp.2
        rw [List.pairwise_iff_getElem]
        have hgs : ∀ k : Nat,
            ((p.terms.set pos
              (⟨(p.terms.getD pos ⟨0, []⟩).coefficient + m.coefficient,
                (p.terms.getD pos ⟨0, []⟩).powers⟩ : OddMonomial)).getD k ⟨0, []⟩).powers =
            (p.terms.getD k ⟨0, []⟩).powers := by
          intro k
          by_cases hkp : k = pos
          · subst hkp
            rw [List.getD_eq_getElem _ (⟨0, []⟩ : OddMonomial) (by simpa using hlt),
              List.getElem_set_self (by simpa using hlt)]
          · rw [List.getD_eq_getElem?_getD,
              List.getElem?_set_ne (fun h => hkp h.symm),
              ← List.getD_eq_getElem?_getD]
        intro i j hi hj hij
        have hi2 : i < p.terms.length := by simpa using hi
        have hj2 : j < p.terms.length := by simpa using hj
        rw [← List.getD_eq_getElem _ (⟨0, []⟩ : OddMonomial) hi,
          ← List.getD_eq_getElem _ (⟨0, []⟩ : OddMonomial) hj, hgs i, hgs j,
          List.getD_eq_getElem _ (⟨0, []⟩ : OddMonomial) hi2,
          List.getD_eq_getElem _ (⟨0, []⟩ : OddMonomial) hj2]
        exact hpw i j hi2 hj2 hij

theorem NormalForm_foldl {β : Type} (f : OddPolynomial → β → OddPolynomial)
    (hf : ∀ (acc : OddPolynomial) (b : β), NormalForm acc → NormalForm (f acc b)) :
    ∀ (l : List β) (acc : OddPolynomial), NormalForm acc →
      NormalForm (l.foldl f acc) := by
  intro l
  induction l with
  | nil => intro acc h; exact h
  | cons x xs ih => intro acc h; exact ih _ (hf _ _ h)

theorem NormalForm_add (p q : OddPolynomial) (hp : NormalForm p) :
    NormalForm (p.add q) :=
  NormalForm_foldl _ (fun acc b h => NormalForm_add_monomial acc b h) q.terms p hp

theorem NormalForm_mulPoly (p q : OddPolynomial) : NormalForm (p.mul q) :=
  NormalForm_foldl _
    (fun acc t h =>
      NormalForm_foldl _ (fun acc2 u h2 => NormalForm_add_monomial acc2 (t.mul u) h2)
        q.terms acc h)
    p.terms _ NormalForm_new

theorem NormalForm_psGo (fuel : Nat) (m : OddMonomial) (n : Nat) :
    NormalForm (psGo fuel m n) := by
  rw [psGo]
  rcases positionBy (fun p => p != 0) m.powers with _ | pos
  · exact NormalForm_new
  · rcases fuel with _ | fuel
    · exact NormalForm_new
    · exact NormalForm_add _ _ (NormalForm_from_monomial _)

theorem NormalForm_pbGo (fuel : Nat) (m : OddMonomial) (n : Nat) :
    NormalForm (pbGo fuel m n) := by
  rw [pbGo]
  rcases positionBy (fun p => p != 0) m.powers with _ | pos
  · exact NormalForm_new
  · rcases fuel with _ | fuel
    · exact NormalForm_new
    · exact NormalForm_add _ _ (NormalForm_from_monomial _)

theorem NormalForm_pdGo (fuel : Nat) (m : OddMonomial) (n : Nat) :
    NormalForm (pdGo fuel m n) := by
  rw [pdGo]
  rcases positionBy (fun p => p != 0) m.powers with _ | pos
  · exact NormalForm_new
  · rcases fuel with _ | fuel
    · exact NormalForm_new
    · exact NormalForm_add _ _ (NormalForm_from_monomial _)

theorem NormalForm_psPoly (p : OddPolynomial) (n : Nat) : NormalForm (p.ps n) :=
  NormalForm_foldl _ (fun _ _ h => NormalForm_add _ _ h) p.terms _ NormalForm_new

theorem NormalForm_pbPoly (p : OddPolynomial) (n : Nat) : NormalForm (p.pb n) :=
  NormalForm_foldl _ (fun _ _ h => NormalForm_add _ _ h) p.terms _ NormalForm_new

theorem NormalForm_pdPoly (p : OddPolynomial) (n : Nat) : NormalForm (p.pd n) :=
  NormalForm_foldl _ (fun _ _ h => NormalForm_add _ _ h) p.terms _ NormalForm_new

theorem NormalForm_fromStrGo :
    ∀ (ts : List (List Char)) (acc p : OddPolynomial), NormalForm acc →
    fromStrGo ts acc = some (Except.ok p) → NormalForm p := by
  intro ts
  induction ts with
  | nil =>
    intro acc p h hok
    rw [fromStrGo] at hok
    simp at hok
    subst hok
    exact h
  | cons t ts ih =>
    intro acc p h hok
    rw [fromStrGo] at hok
    rcases hsp : splitWhite t with _ | ⟨ctok, ptoks⟩ <;> simp only [hsp] at hok
    · simp at hok
    · rcases hc : parseI32 ctok with _ | coefficient <;> simp only [hc] at hok
      · simp at hok
      · rcases hpw : parsePowers ptoks with _ | powers <;> simp only [hpw] at hok
        · simp at hok
        · exact ih _ _ (NormalForm_add_monomial _ _ h) hok

/-- C2: every polynomial produced by a public operation (construction from
a monomial, successful parsing, addition, multiplication, or any of the
three operator families) satisfies the normal-form invariant: no term has
coefficient 0, and no two terms have equal zero-padded power vectors. -/
theorem C2_public_ops_normal_form (p : OddPolynomial) (h : Produced p) :
    NormalForm p := by
  induction h with
  | from_monomial m => exact NormalForm_from_monomial m
  | parsed s q hq => exact NormalForm_fromStrGo _ _ _ NormalForm_new hq
  | add p q _ _ ihp _ => exact NormalForm_add _ _ ihp
  | mul p q _ _ _ _ => exact NormalForm_mulPoly _ _
  | ps p n _ _ => exact NormalForm_psPoly _ _
  | pb p n _ _ => exact NormalForm_pbPoly _ _
  | pd p n _ _ => exact NormalForm_pdPoly _ _

/-- Witness for C2 at a concrete input. -/
theorem C2_witness : NormalForm (OddPolynomial.from_monomial ⟨1, [1]⟩) :=
  C2_public_ops_normal_form _ (Produced.from_monomial ⟨1, [1]⟩)

/-! ## Claim C9: the operator recursions decrease the total exponent -/

theorem decAt_sum (l : List Nat) : ∀ pos : Nat,
    positionBy (fun p => p != 0) l = some pos → (decAt l pos).sum + 1 = l.sum := by
  induction l with
  | nil => intro pos h; simp [positionBy] at h
  | cons x xs ih =>
    intro pos h
    rw [positionBy] at h
    by_cases hx : x ≠ 0
    · rw [if_pos (by simpa using hx)] at h
      simp at h
      subst h
      show ((x - 1) :: xs).sum + 1 = (x :: xs).sum
      simp
      omega
    · rw [if_neg (by simpa using hx)] at h
      rcases hpos : positionBy (fun p => p != 0) xs with _ | m <;> rw [hpos] at h
      · simp at h
      · simp at h
        subst h
        have := ih m hpos
        show (x :: xs.set m (xs.getD m 0 - 1)).sum + 1 = (x :: xs).sum
        simp only [List.sum_cons]
        unfold decAt at this
        omega

theorem ps_rec (m : OddMonomial) (n : Nat) : PsRec m n := by
  unfold PsRec
  rcases hpos : positionBy (fun p => p != 0) m.powers with _ | pos
  · simp only [hpos]
    rw [OddMonomial.ps, psGo, hpos]
  · simp only [hpos]
    have hsum := decAt_sum m.powers pos hpos
    rw [OddMonomial.ps, psGo, hpos, ← hsum]
    rfl

theorem pb_rec (m : OddMonomial) (n : Nat) : PbRec m n := by
  unfold PbRec
  rcases hpos : positionBy (fun p => p != 0) m.powers with _ | pos
  · simp only [hpos]
    rw [OddMonomial.pb, pbGo, hpos]
  · simp only [hpos]
    have hsum := decAt_sum m.powers pos hpos
    rw [OddMonomial.pb, pbGo, hpos, ← hsum]
    rfl

theorem pd_rec (m : OddMonomial) (n : Nat) : PdRec m n := by
  unfold PdRec
  rcases hpos : positionBy (fun p => p != 0) m.powers with _ | pos
  · simp only [hpos]
    rw [OddMonomial.pd, pdGo, hpos]
  · simp only [hpos]
    have hsum := decAt_sum m.powers pos hpos
    rw [OddMonomial.pd, pdGo, hpos, ← hsum]
    rfl

/-- C9: for every monomial and every strand `n` satisfying the family's
minimum (`n ≥ 1` for S and B, `n ≥ 2` for D), the recursive monomial-level
operator of each family terminates: each satisfies its source recursion
(`PsRec`/`PbRec`/`PdRec`), whose recursive call is on the monomial with
the first nonzero power decremented, and that decrement strictly
decreases the total exponent. -/
theorem C9_operators_terminate (m : OddMonomial) (n : Nat) :
    (∀ pos : Nat, positionBy (fun p => p != 0) m.powers = some pos →
      (decAt m.powers pos).sum < m.powers.sum) ∧
    (1 ≤ n → PsRec m n) ∧ (1 ≤ n → PbRec m n) ∧ (2 ≤ n → PdRec m n) :=
  ⟨fun pos h => by have := decAt_sum m.powers pos h; omega,
   fun _ => ps_rec m n, fun _ => pb_rec m n, fun _ => pd_rec m n⟩

/-- Witness for C9 at the concrete monomial `x_1^2` and strand `2`. -/
theorem C9_witness :
    positionBy (fun p => p != 0) (⟨1, [2]⟩ : OddMonomial).powers = some 0 ∧
    (decAt (⟨1, [2]⟩ : OddMonomial).powers 0).sum <
      (⟨1, [2]⟩ : OddMonomial).powers.sum ∧
    PsRec ⟨1, [2]⟩ 2 ∧ PbRec ⟨1, [2]⟩ 2 ∧ PdRec ⟨1, [2]⟩ 2 := by
  have h := C9_operators_terminate ⟨1, [2]⟩ 2
  exact ⟨by decide, h.1 0 (by decide), h.2.1 (by decide), h.2.2.1 (by decide),
    h.2.2.2 (by decide)⟩

/-! ## Claim C3: the closure enumeration round -/

theorem mem_insertP_self (l : List OddPolynomial) (p : OddPolynomial) :
    p ∈ insertP l p := by
  unfold insertP
  by_cases h : p ∈ l
  · rwa [if_pos h]
  · rw [if_neg h]; simp

theorem mem_insertP_of_mem (l : List OddPolynomial) (p q : OddPolynomial)
    (h : p ∈ l) : p ∈ insertP l q := by
  unfold insertP
  by_cases hq : q ∈ l
  · rwa [if_pos hq]
  · rw [if_neg hq]; exact List.mem_append_left _ h

theorem mem_foldl_insertP_of_mem_acc :
    ∀ (l acc : List OddPolynomial) (p : OddPolynomial), p ∈ acc →
      p ∈ l.foldl insertP acc := by
  intro l
  induction l with
  | nil => intro acc p h; exact h
  | cons x xs ih => intro acc p h; exact ih _ _ (mem_insertP_of_mem _ _ _ h)

theorem mem_foldl_insertP_of_mem :
    ∀ (l acc : List OddPolynomial) (p : OddPolynomial), p ∈ l →
      p ∈ l.foldl insertP acc := by
  intro l
  induction l with
  | nil => intro acc p h; simp at h
  | cons x xs ih =>
    intro acc p h
    rcases List.mem_cons.mp h with rfl | h
    · exact mem_foldl_insertP_of_mem_acc xs _ _ (mem_insertP_self acc p)
    · exact ih _ _ h

theorem mem_foldl_insert_map_of_mem_acc {β : Type} (g : β → OddPolynomial) :
    ∀ (ks : List β) (acc : List OddPolynomial) (q : OddPolynomial), q ∈ acc →
      q ∈ ks.foldl (fun a k => insertP a (g k)) acc := by
  intro ks
  induction ks with
  | nil => intro acc q h; exact h
  | cons k ks ih => intro acc q h; exact ih _ _ (mem_insertP_of_mem _ _ _ h)

theorem mem_foldl_insert_map {β : Type} (g : β → OddPolynomial) :
    ∀ (ks : List β) (acc : List OddPolynomial) (k : β), k ∈ ks →
      g k ∈ ks.foldl (fun a j => insertP a (g j)) acc := by
  intro ks
  induction ks with
  | nil => intro acc k h; simp at h
  | cons k0 ks ih =>
    intro acc k h
    rcases List.mem_cons.mp h with rfl | h
    · exact mem_foldl_insert_map_of_mem_acc g ks _ _ (mem_insertP_self acc (g k))
    · exact ih _ _ h

theorem mem_newFold_of_mem_acc (n : Nat) :
    ∀ (xs acc : List OddPolynomial) (q : OddPolynomial), q ∈ acc →
      q ∈ xs.foldl (fun acc poly =>
        insertP ((List.range' 1 (n - 1)).foldl (fun a k => insertP a (poly.ps k)) acc)
          (poly.pd n)) acc := by
  intro xs
  induction xs with
  | nil => intro acc q h; exact h
  | cons x xs ih =>
    intro acc q h
    exact ih _ _ (mem_insertP_of_mem _ _ _
      (mem_foldl_insert_map_of_mem_acc (fun k => x.ps k) _ _ _ h))

theorem mem_newFold (n : Nat) :
    ∀ (xs acc : List OddPolynomial) (p : OddPolynomial), p ∈ xs →
      (∀ k ∈ List.range' 1 (n - 1),
        p.ps k ∈ xs.foldl (fun acc poly =>
          insertP ((List.range' 1 (n - 1)).foldl (fun a k => insertP a (poly.ps k)) acc)
            (poly.pd n)) acc) ∧
      p.pd n ∈ xs.foldl (fun acc poly =>
        insertP ((List.range' 1 (n - 1)).foldl (fun a k => insertP a (poly.ps k)) acc)
          (poly.pd n)) acc := by
  intro xs
  induction xs with
  | nil => intro acc p h; simp at h
  | cons x xs ih =>
    intro acc p h
    rcases List.mem_cons.mp h with rfl | h
    · constructor
      · intro k hk
        refine mem_newFold_of_mem_acc n xs _ _ ?_
        exact mem_insertP_of_mem _ _ _
          (mem_foldl_insert_map (fun j => p.ps j) _ _ _ hk)
      · exact mem_newFold_of_mem_acc n xs _ _ (mem_insertP_self _ _)
    · exact ih _ _ h

/-- C3 counterexample: with rank `n = 3` and the set `{x_2}`, the strand
`k = 2` satisfies `1 ≤ k < n`, yet the round does not contain
`(x_2).pd 2` — the code applies the D family only once, at strand `n`,
never at the other strands of the range. -/
theorem C3_counterexample_pd_strand :
    (OddPolynomial.from_monomial ⟨1, [0, 1]⟩) ∈
      [OddPolynomial.from_monomial ⟨1, [0, 1]⟩] ∧
    (1 : Nat) ≤ 2 ∧ (2 : Nat) < 3 ∧
    (OddPolynomial.from_monomial ⟨1, [0, 1]⟩).pd 2 ∉
      schudRound 3 [OddPolynomial.from_monomial ⟨1, [0, 1]⟩] := by
  decide

/-- C3 amended: in every round of the closure enumeration for rank `n`,
each polynomial in the set has the S-family operator applied at every
strand `1 ≤ k < n`, and the D-family operator applied exactly once, at
strand `n` itself; the set's previous elements and all outputs are merged
into the set after the round. -/
theorem C3_round_S_all_strands_D_at_rank (S : List OddPolynomial) (n : Nat)
    (p : OddPolynomial) (hp : p ∈ S) :
    (∀ k : Nat, 1 ≤ k → k < n → p.ps k ∈ schudRound n S) ∧
    p.pd n ∈ schudRound n S ∧ p ∈ schudRound n S := by
  unfold schudRound
  have hnew := mem_newFold n S [] p hp
  refine ⟨?_, ?_, ?_⟩
  · intro k h1 hn
    refine mem_foldl_insertP_of_mem _ _ _ (hnew.1 k ?_)
    rw [List.mem_range'_1]
    omega
  · exact mem_foldl_insertP_of_mem _ _ _ hnew.2
  · exact mem_foldl_insertP_of_mem_acc _ _ _ hp

/-- Witness for the amended C3 at the set `{x_1}` and rank `2`. -/
theorem C3_witness :
    ((OddPolynomial.from_monomial ⟨1, [1]⟩).ps 1 ∈
      schudRound 2 [OddPolynomial.from_monomial ⟨1, [1]⟩]) ∧
    ((OddPolynomial.from_monomial ⟨1, [1]⟩).pd 2 ∈
      schudRound 2 [OddPolynomial.from_monomial ⟨1, [1]⟩]) ∧
    (OddPolynomial.from_monomial ⟨1, [1]⟩ ∈
      schudRound 2 [OddPolynomial.from_monomial ⟨1, [1]⟩]) := by
  have h := C3_round_S_all_strands_D_at_rank
    [OddPolynomial.from_monomial ⟨1, [1]⟩] 2
    (OddPolynomial.from_monomial ⟨1, [1]⟩) (by decide)
  exact ⟨h.1 1 (by decide) (by decide), h.2.1, h.2.2⟩

/-! ## Claim C5: hashing and equality of polynomials -/

/-- C5 counterexample: two polynomials with equal canonical multisets of
(support, coefficient) pairs, built in opposite term orders, feed
different value streams to the derived hasher, so their hash values are
not guaranteed equal — the derived `Hash` is insertion-order-sensitive. -/
theorem C5_counterexample_hash_order_sensitive :
    specPolyEq ⟨[⟨1, [1]⟩, ⟨1, [0, 1]⟩]⟩ ⟨[⟨1, [0, 1]⟩, ⟨1, [1]⟩]⟩ ∧
    OddPolynomial.hashStream ⟨[⟨1, [1]⟩, ⟨1, [0, 1]⟩]⟩ ≠
      OddPolynomial.hashStream ⟨[⟨1, [0, 1]⟩, ⟨1, [1]⟩]⟩ := by
  constructor
  · show canonMultiset _ = canonMultiset _
    decide
  · decide

theorem flatten_hashStream_inj :
    ∀ (ts1 ts2 : List OddMonomial), ts1.length = ts2.length →
    (ts1.map OddMonomial.hashStream).flatten =
      (ts2.map OddMonomial.hashStream).flatten → ts1 = ts2 := by
  intro ts1
  induction ts1 with
  | nil =>
    intro ts2 hl _
    cases ts2 with
    | nil => rfl
    | cons _ _ => simp at hl
  | cons m1 r1 ih =>
    intro ts2 hl hf
    cases ts2 with
    | nil => simp at hl
    | cons m2 r2 =>
      simp only [List.map_cons, List.flatten_cons, OddMonomial.hashStream,
        List.cons_append, List.cons.injEq] at hf
      obtain ⟨hc, hlen, htail⟩ := hf
      have hplen : m1.powers.length = m2.powers.length := Int.ofNat_inj.mp hlen
      have hmlen : (m1.powers.map Int.ofNat).length = (m2.powers.map Int.ofNat).length := by
        simp [hplen]
      obtain ⟨hmap, hrest⟩ := List.append_inj htail hmlen
      have hpw : m1.powers = m2.powers :=
        List.map_injective_iff.mpr (fun a b => Int.ofNat_inj.mp) hmap
      have hr : r1 = r2 := ih r2 (by simpa using hl) hrest
      cases m1
      cases m2
      simp_all
      
theorem hashStream_eq_iff (p q : OddPolynomial) :
    OddPolynomial.hashStream p = OddPolynomial.hashStream q ↔ p.terms = q.terms := by
  constructor
  · intro h
    simp only [OddPolynomial.hashStream, List.cons.injEq] at h
    exact flatten_hashStream_inj _ _ (Int.ofNat_inj.mp h.1) h.2
  · intro h
    simp [OddPolynomial.hashStream, h]

/-- C5 amended: the hash input streams of two polynomials coincide exactly
when their term lists are identical (same order and same exact power
vectors); equal canonical multisets are not sufficient.  Equal term lists
do imply the (spec-modelled) canonical-multiset equality used for set
membership. -/
theorem C5_hash_eq_iff_term_lists_eq (p q : OddPolynomial) :
    (OddPolynomial.hashStream p = OddPolynomial.hashStream q ↔ p.terms = q.terms) ∧
    (p.terms = q.terms → specPolyEq p q) := by
  refine ⟨hashStream_eq_iff p q, fun h => ?_⟩
  show canonMultiset p = canonMultiset q
  cases p
  cases q
  simp only at h
  subst h
  rfl

/-! ## Claim C4: parse failures -/

/-- C4 counterexample: parsing the empty string reaches a term with no
tokens; the coefficient token is missing, yet the result models the
`expect("empty term")` panic (`none`) rather than a `ParseError` returned
to the caller. -/
theorem C4_counterexample_empty_term_panics :
    OddPolynomial.from_str [] = none := rfl

theorem parsePowers_none :
    ∀ (l : List (List Char)) (t : List Char), t ∈ l → parseU32 t = none →
    parsePowers l = none := by
  intro l
  induction l with
  | nil => intro t ht _; simp at ht
  | cons u us ih =>
    intro t ht hbad
    rw [parsePowers]
    rcases List.mem_cons.mp ht with rfl | ht
    · rw [hbad]
    · rcases hu : parseU32 u with _ | p
      · rfl
      · show (parsePowers us).map (p :: ·) = none
        rw [ih t ht hbad]
        rfl

/-- C4 amended: provided every `/`-separated term has at least one token,
parsing fails with a `ParseError` whenever some term's coefficient token
is non-integer or some exponent token is non-integer.  A term with no
tokens at all instead causes a panic (`expect("empty term")`), modelled by
`none` — see the counterexample. -/
theorem C4_bad_token_parse_error (s : List Char)
    (hne : ∀ term ∈ splitOnChar '/' s, splitWhite term ≠ [])
    (hbad : ∃ term ∈ splitOnChar '/' s,
      parseI32 ((splitWhite term).headD []) = none ∨
      ∃ t ∈ (splitWhite term).tail, parseU32 t = none) :
    ∃ e : Error, OddPolynomial.from_str s = some (Except.error e) := by
  unfold OddPolynomial.from_str
  revert hne hbad
  generalize splitOnChar '/' s = ts
  suffices h : ∀ (ts : List (List Char)) (acc : OddPolynomial),
      (∀ term ∈ ts, splitWhite term ≠ []) →
      (∃ term ∈ ts, parseI32 ((splitWhite term).headD []) = none ∨
        ∃ t ∈ (splitWhite term).tail, parseU32 t = none) →
      ∃ e, fromStrGo ts acc = some (Except.error e) by
    intro hne hbad
    exact h ts OddPolynomial.new hne hbad
  intro ts
  induction ts with
  | nil => intro acc _ hbad; simp at hbad
  | cons term rest ih =>
    intro acc hne hbad
    rcases hsp : splitWhite term with _ | ⟨ctok, ptoks⟩
    · exact absurd hsp (hne term (by simp))
    · rw [fromStrGo]
      simp only [hsp]
      rcases hbad with ⟨t0, ht0, hb0⟩
      rcases List.mem_cons.mp ht0 with rfl | ht0
      · -- the bad token is in the current term
        rw [hsp] at hb0
        rcases hc : parseI32 ctok with _ | coefficient
        · exact ⟨_, rfl⟩
        · rcases hb0 with hb0 | ⟨t1, ht1, hb1⟩
          · simp at hb0
            rw [hc] at hb0
            simp at hb0
          · have := parsePowers_none ptoks t1 (by simpa using ht1) hb1
            rw [this]
            exact ⟨_, rfl⟩
      · -- the bad token is in a later term
        rcases hc : parseI32 ctok with _ | coefficient
        · exact ⟨_, rfl⟩
        · rcases hpw : parsePowers ptoks with _ | powers
          · exact ⟨_, rfl⟩
          · exact ih _ (fun u hu => hne u (by simp [hu]))
              ⟨t0, ht0, hb0⟩

/-- Witness for the amended C4 on the input `"x"`. -/
theorem C4_witness :
    (∀ term ∈ splitOnChar '/' ['x'], splitWhite term ≠ []) ∧
    ∃ e : Error, OddPolynomial.from_str ['x'] = some (Except.error e) :=
  ⟨by decide,
   C4_bad_token_parse_error ['x'] (by decide) ⟨['x'], by decide, Or.inl (by decide)⟩⟩

/-! ## Claim C8: the formatting rules -/

theorem positionBy_eq_none_iff {α : Type} (f : α → Bool) :
    ∀ l : List α, positionBy f l = none ↔ ∀ x ∈ l, f x = false := by
  intro l
  induction l with
  | nil => simp [positionBy]
  | cons y ys ih =>
    rw [positionBy]
    by_cases hy : f y
    · simp [hy]
    · simp only [if_neg hy]
      constructor
      · intro h x hx
        rcases List.mem_cons.mp hx with rfl | hx
        · simpa using hy
        · rcases hpos : positionBy f ys with _ | m
          · exact (ih.mp hpos) x hx
          · rw [hpos] at h; simp at h
      · intro h
        rw [ih.mpr (fun x hx => h x (by simp [hx]))]
        rfl

theorem positionBy_nonzero_some (l : List Nat) : ∀ n : Nat,
    positionBy (fun p => p != 0) l = some n →
    n < l.length ∧ l.getD n 0 ≠ 0 ∧ ∀ j, j < n → l.getD j 0 = 0 := by
  induction l with
  | nil => intro n h; simp [positionBy] at h
  | cons x xs ih =>
    intro n h
    rw [positionBy] at h
    by_cases hx : x ≠ 0
    · rw [if_pos (by simpa using hx)] at h
      simp at h
      subst h
      exact ⟨by simp, by simpa using hx, fun j hj => by omega⟩
    · rw [if_neg (by simpa using hx)] at h
      rcases hpos : positionBy (fun p => p != 0) xs with _ | m <;> rw [hpos] at h
      · simp at h
      · simp at h
        subst h
        obtain ⟨h1, h2, h3⟩ := ih m hpos
        refine ⟨by simpa using h1, by simpa using h2, fun j hj => ?_⟩
        cases j with
        | zero => simpa using hx
        | succ j => simpa using h3 j (by omega)

theorem rpositionNonzero_none_iff (l : List Nat) :
    rpositionNonzero l = none ↔ ∀ p ∈ l, p = 0 := by
  unfold rpositionNonzero
  rcases hpos : positionBy (fun p => p != 0) l.reverse with _ | i
  · simp only [Option.map_none']
    have := (positionBy_eq_none_iff _ l.reverse).mp hpos
    constructor
    · intro _ p hp
      have := this p (by simpa using hp)
      simpa using this
    · intro _; trivial
  · simp only [Option.map_some']
    constructor
    · intro h; simp at h
    · intro h
      exfalso
      obtain ⟨h1, h2, _⟩ := positionBy_nonzero_some l.reverse i hpos
      rw [List.getD_eq_getElem l.reverse 0 h1] at h2
      exact h2 (by
        have hm : l.reverse[i] ∈ l.reverse := List.getElem_mem _
        exact h _ (List.mem_reverse.mp hm))

theorem rpositionNonzero_some_spec (l : List Nat) (pos : Nat) :
    rpositionNonzero l = some pos →
    pos < l.length ∧ l.getD pos 0 ≠ 0 ∧ ∀ j, pos < j → l.getD j 0 = 0 := by
  unfold rpositionNonzero
  rcases hpos : positionBy (fun p => p != 0) l.reverse with _ | i
  · simp
  · simp only [Option.map_some', Option.some.injEq]
    intro h
    obtain ⟨h1, h2, h3⟩ := positionBy_nonzero_some l.reverse i hpos
    have hlen : i < l.length := by simpa using h1
    have hrev : ∀ k (hk : k < l.length), l.reverse.getD k 0 = l.getD (l.length - 1 - k) 0 := by
      intro k hk
      have hk' : k < l.reverse.length := by simpa using hk
      rw [List.getD_eq_getElem l.reverse 0 hk', List.getElem_reverse,
        List.getD_eq_getElem l 0 (by omega)]
    subst h
    refine ⟨by omega, ?_, ?_⟩
    · rw [← hrev i hlen]; exact h2
    · intro j hj
      by_cases hjl : j < l.length
      · have hji : l.length - 1 - j < i := by omega
        have := h3 (l.length - 1 - j) hji
        rw [hrev (l.length - 1 - j) (by omega)] at this
        rw [show l.length - 1 - (l.length - 1 - j) = j by omega] at this
        exact this
      · rw [List.getD_eq_getElem?_getD]
        rw [List.getElem?_eq_none (by omega)]
        rfl

theorem filterMap_enumFrom_zero (xs : List Nat) : ∀ k : Nat, (∀ p ∈ xs, p = 0) →
    (List.enumFrom k xs).filterMap
      (fun ip => if ip.2 ≠ 0 then some (xTerm ip.1 ip.2) else none) = [] := by
  induction xs with
  | nil => intro k _; rfl
  | cons y ys ihy =>
    intro k hz
    have hy : y = 0 := hz y (by simp)
    show List.filterMap _ ((k, y) :: List.enumFrom (k + 1) ys) = []
    rw [List.filterMap_cons]
    simp only [hy]
    rw [if_neg (by simp)]
    exact ihy (k + 1) (fun p hp => hz p (by simp [hp]))

theorem intercalate_cons_of_ne_nil (sep a : List Char) (rest : List (List Char))
    (h : rest ≠ []) :
    List.intercalate sep (a :: rest) = a ++ sep ++ List.intercalate sep rest := by
  cases rest with
  | nil => exact absurd rfl h
  | cons b bs => simp [List.intercalate, List.intersperse]

theorem xTerm_ne_nil (i p : Nat) : xTerm i p ≠ [] := by
  unfold xTerm
  simp

theorem xparts_eq (l : List Nat) : ∀ (n pos : Nat),
    pos < l.length → l.getD pos 0 ≠ 0 → (∀ j, pos < j → l.getD j 0 = 0) →
    (((List.enumFrom n l).take pos).map
        (fun ip => if ip.2 ≠ 0 then xTerm ip.1 ip.2 ++ [' '] else [])).flatten
      ++ xTerm (n + pos) (l.getD pos 0) =
    List.intercalate [' ']
      ((List.enumFrom n l).filterMap
        (fun ip => if ip.2 ≠ 0 then some (xTerm ip.1 ip.2) else none)) := by
  induction l with
  | nil => intro n pos h; simp at h
  | cons x xs ih =>
    intro n pos hlt hnz hzero
    cases pos with
    | zero =>
      have hx : x ≠ 0 := by simpa using hnz
      have hzs : ∀ p ∈ xs, p = 0 := by
        intro p hp
        obtain ⟨i, hi, rfl⟩ := List.mem_iff_getElem.mp hp
        have := hzero (i + 1) (by omega)
        rw [show ((x :: xs).getD (i + 1) 0) = xs.getD i 0 from rfl,
          List.getD_eq_getElem xs 0 hi] at this
        exact this
      show ([] : List Char) ++ xTerm n ((x :: xs).getD 0 0) =
        List.intercalate [' '] (List.filterMap _ ((n, x) :: List.enumFrom (n + 1) xs))
      rw [List.filterMap_cons]
      simp only [show ((x :: xs).getD 0 0) = x from rfl]
      rw [if_pos (by simpa using hx), filterMap_enumFrom_zero xs (n + 1) hzs]
      simp [List.intercalate, List.intersperse]
    | succ pos =>
      have hlt' : pos < xs.length := by simpa using hlt
      have hnz' : xs.getD pos 0 ≠ 0 := by simpa using hnz
      have hz' : ∀ j, pos < j → xs.getD j 0 = 0 := by
        intro j hj
        have := hzero (j + 1) (by omega)
        simpa using this
      have ihx := ih (n + 1) pos hlt' hnz' hz'
      have hgd : (x :: xs).getD (pos + 1) 0 = xs.getD pos 0 := rfl
      by_cases hx : x ≠ 0
      · -- head kept on both sides
        have hrest : (List.enumFrom (n + 1) xs).filterMap
            (fun ip => if ip.2 ≠ 0 then some (xTerm ip.1 ip.2) else none) ≠ [] := by
          intro hnil
          rw [hnil, show List.intercalate [' '] ([] : List (List Char)) = [] from rfl] at ihx
          exact absurd (List.append_eq_nil.mp ihx).2 (xTerm_ne_nil _ _)
        show ((List.take (pos + 1) ((n, x) :: List.enumFrom (n + 1) xs)).map _).flatten
            ++ xTerm (n + (pos + 1)) ((x :: xs).getD (pos + 1) 0) =
          List.intercalate [' '] (List.filterMap _ ((n, x) :: List.enumFrom (n + 1) xs))
        have hfm : List.filterMap
            (fun ip => if ip.2 ≠ 0 then some (xTerm ip.1 ip.2) else none)
            ((n, x) :: List.enumFrom (n + 1) xs) =
          xTerm n x :: List.filterMap
            (fun ip => if ip.2 ≠ 0 then some (xTerm ip.1 ip.2) else none)
            (List.enumFrom (n + 1) xs) :=
          List.filterMap_cons_some (by
            show (if ((n, x) : Nat × Nat).2 ≠ 0 then
                some (xTerm ((n, x) : Nat × Nat).1 ((n, x) : Nat × Nat).2) else none) =
              some (xTerm n x)
            rw [if_pos (show ((n, x) : Nat × Nat).2 ≠ 0 from hx)])
        rw [hfm, List.take_succ_cons, List.map_cons, List.flatten_cons]
        simp only [if_pos (show ((n, x) : Nat × Nat).2 ≠ 0 from hx)]
        rw [intercalate_cons_of_ne_nil _ _ _ hrest, ← ihx, hgd,
          show n + (pos + 1) = n + 1 + pos by omega]
        simp
      · -- head dropped on both sides
        show ((List.take (pos + 1) ((n, x) :: List.enumFrom (n + 1) xs)).map _).flatten
            ++ xTerm (n + (pos + 1)) ((x :: xs).getD (pos + 1) 0) =
          List.intercalate [' '] (List.filterMap _ ((n, x) :: List.enumFrom (n + 1) xs))
        have hfm : List.filterMap
            (fun ip => if ip.2 ≠ 0 then some (xTerm ip.1 ip.2) else none)
            ((n, x) :: List.enumFrom (n + 1) xs) =
          List.filterMap
            (fun ip => if ip.2 ≠ 0 then some (xTerm ip.1 ip.2) else none)
            (List.enumFrom (n + 1) xs) :=
          List.filterMap_cons_none (by
            show (if ((n, x) : Nat × Nat).2 ≠ 0 then
                some (xTerm ((n, x) : Nat × Nat).1 ((n, x) : Nat × Nat).2) else none) =
              none
            rw [if_neg (show ¬(((n, x) : Nat × Nat).2 ≠ 0) from hx)])
        rw [hfm, List.take_succ_cons, List.map_cons, List.flatten_cons]
        simp only [if_neg (show ¬(((n, x) : Nat × Nat).2 ≠ 0) from hx)]
        rw [← ihx, hgd, show n + (pos + 1) = n + 1 + pos by omega]
        simp

theorem numeral_eq (c : Int) :
    (if c ≠ 1 ∧ c ≠ -1 then
      (if c < 0 then intRepr (-c) else intRepr c) else ([] : List Char)) =
    (if c = 1 ∨ c = -1 then [] else natRepr c.natAbs) := by
  by_cases h : c = 1 ∨ c = -1
  · rw [if_pos h, if_neg (by tauto)]
  · rw [if_neg h, if_pos (by tauto)]
    by_cases hneg : c < 0
    · rw [if_pos hneg]
      unfold intRepr
      rw [if_neg (by omega)]
      congr 1
      omega
    · rw [if_neg hneg]
      unfold intRepr
      rw [if_neg hneg]
      congr 1
      omega

theorem fmt_no_sign_eq_specTermBody (m : OddMonomial) :
    m.fmt_no_sign = specTermBody m := by
  unfold OddMonomial.fmt_no_sign specTermBody
  by_cases hz : m.coefficient = 0
  · rw [if_pos (show m.is_zero = true from by simp [OddMonomial.is_zero, hz]),
      if_pos hz]
  · rw [if_neg (show ¬(m.is_zero = true) from by simp [OddMonomial.is_zero, hz]),
      if_neg hz]
    rcases hpos : rpositionNonzero m.powers with _ | pos
    · simp only [hpos]
      have hall := (rpositionNonzero_none_iff m.powers).mp hpos
      rw [if_pos (by simp only [List.all_eq_true, beq_iff_eq]; exact hall)]
    · simp only [hpos]
      obtain ⟨hlt, hnz, hzero⟩ := rpositionNonzero_some_spec m.powers pos hpos
      have hnall : ¬(m.powers.all (fun p => p == 0) = true) := by
        simp only [List.all_eq_true, beq_iff_eq]
        intro hall
        exact hnz (by rw [List.getD_eq_getElem m.powers 0 hlt]
                      exact hall _ (List.getElem_mem hlt))
      rw [if_neg hnall, numeral_eq]
      have hx := xparts_eq m.powers 0 pos hlt hnz hzero
      rw [show (0 : Nat) + pos = pos from by omega] at hx
      unfold xFactors
      rw [show m.powers.enum = List.enumFrom 0 m.powers from rfl]
      rw [List.append_assoc]
      congr 1

/-- C8 counterexample: the polynomial with the single constant term `-5`
formats as `--5`: the term header prints a `-` for the negative
coefficient and the all-zero-exponent body prints the signed coefficient
again, so the term does not print "just its coefficient" — the sign is
duplicated. -/
theorem C8_counterexample_duplicated_sign :
    OddPolynomial.display ⟨[⟨-5, []⟩]⟩ = ['-', '-', '5'] ∧
    OddPolynomial.display ⟨[⟨-5, []⟩]⟩ ≠ intRepr (-5) := by
  constructor
  · rfl
  · decide

/-- C8 amended: when a polynomial is formatted, the first term carries a
leading `-` exactly when its coefficient is negative; every subsequent
term is preceded by `" + "` or `" - "` with the sign stripped from the
term body's numeral; a coefficient of exactly 1 or -1 omits the numeral;
a term whose exponents are all zero prints its SIGNED coefficient as the
body, so a negative constant term shows a duplicated sign; and the empty
polynomial prints `"0"`.  Formally: the source formatter agrees with
`specDisplay`, the formatter written from this wording. -/
theorem C8_display_follows_spec (p : OddPolynomial) :
    p.display = specDisplay p := by
  unfold OddPolynomial.display specDisplay
  cases p with
  | mk terms =>
    cases terms with
    | nil => rfl
    | cons t rest =>
      simp only [OddMonomial.display, fmt_no_sign_eq_specTermBody,
        List.append_assoc]

/-! ## Claim C7: format / parse round trip -/

/-- C7 counterexample: `"1 1"` parses to the monomial `x_1`, but the
formatter prints it as `x_1^1`, which is not in the parser's grammar:
re-parsing the formatted output yields a `ParseError`, not the original
polynomial. -/
theorem C7_counterexample_format_not_reparsable :
    OddPolynomial.from_str ("1 1".toList) = some (Except.ok ⟨[⟨1, [1]⟩]⟩) ∧
    OddPolynomial.from_str ((⟨[⟨1, [1]⟩]⟩ : OddPolynomial).display) =
      some (Except.error (Error.parsePolynomial "invalid coefficient".toList)) := by
  exact ⟨rfl, rfl⟩

theorem char_digit_isDigit (d : Nat) (h : d < 10) :
    (Char.ofNat (48 + d)).isDigit = true := by
  interval_cases d <;> decide

theorem char_digit_val (d : Nat) (h : d < 10) :
    digitVal (Char.ofNat (48 + d)) = d := by
  interval_cases d <;> decide

theorem char_digit_not_ws (d : Nat) (h : d < 10) :
    (Char.ofNat (48 + d)).isWhitespace = false := by
  interval_cases d <;> decide

theorem char_digit_ne_slash (d : Nat) (h : d < 10) :
    (Char.ofNat (48 + d)) ≠ '/' := by
  interval_cases d <;> decide

theorem char_digit_ne_minus (d : Nat) (h : d < 10) :
    (Char.ofNat (48 + d)) ≠ '-' := by
  interval_cases d <;> decide

theorem char_digit_ne_plus (d : Nat) (h : d < 10) :
    (Char.ofNat (48 + d)) ≠ '+' := by
  interval_cases d <;> decide

theorem natDigits_spec (fuel : Nat) : ∀ n : Nat, n ≤ fuel →
    (∀ c ∈ natDigits (fuel + 1) n, ∃ d : Nat, d < 10 ∧ c = Char.ofNat (48 + d)) ∧
    (∀ a : Nat, (natDigits (fuel + 1) n).foldl (fun a c => a * 10 + digitVal c) a =
      a * 10 ^ (natDigits (fuel + 1) n).length + n) ∧
    natDigits (fuel + 1) n ≠ [] := by
  induction fuel using Nat.strong_induction_on with
  | _ fuel ih =>
    intro n hn
    rw [natDigits]
    by_cases h10 : n < 10
    · rw [if_pos h10]
      refine ⟨?_, ?_, by simp⟩
      · intro c hc
        simp at hc
        exact ⟨n, h10, hc⟩
      · intro a
        simp only [List.foldl_cons, List.foldl_nil, List.length_cons,
          List.length_nil, pow_one, zero_add]
        rw [char_digit_val n h10]
    · rw [if_neg h10]
      have hfuel : 1 ≤ fuel := by omega
      have hrw : fuel = fuel - 1 + 1 := by omega
      rw [hrw]
      obtain ⟨hdig, hval, hne⟩ := ih (fuel - 1) (by omega) (n / 10) (by omega)
      refine ⟨?_, ?_, by simp⟩
      · intro c hc
        rcases List.mem_append.mp hc with h | h
        · exact hdig c h
        · simp at h
          exact ⟨n % 10, by omega, h⟩
      · intro a
        rw [List.foldl_append]
        simp only [List.foldl_cons, List.foldl_nil, List.length_append,
          List.length_cons, List.length_nil]
        rw [hval a, char_digit_val (n % 10) (by omega)]
        have hnm : n / 10 * 10 + n % 10 = n := by omega
        have hlen10 : (10 : Nat) ^ ((natDigits (fuel - 1 + 1) (n / 10)).length + (0 + 1)) =
            10 ^ (natDigits (fuel - 1 + 1) (n / 10)).length * 10 := by
          rw [pow_add]
          norm_num
        calc (a * 10 ^ (natDigits (fuel - 1 + 1) (n / 10)).length + n / 10) * 10 + n % 10
            = a * (10 ^ (natDigits (fuel - 1 + 1) (n / 10)).length * 10) +
                (n / 10 * 10 + n % 10) := by ring
          _ = a * 10 ^ ((natDigits (fuel - 1 + 1) (n / 10)).length + (0 + 1)) + n := by
                rw [hnm, hlen10]

theorem natRepr_digits (n : Nat) :
    ∀ c ∈ natRepr n, ∃ d : Nat, d < 10 ∧ c = Char.ofNat (48 + d) :=
  (natDigits_spec n n le_rfl).1

theorem natRepr_ne_nil (n : Nat) : natRepr n ≠ [] :=
  (natDigits_spec n n le_rfl).2.2

theorem digitsToNat_natRepr (n : Nat) : digitsToNat (natRepr n) = some n := by
  obtain ⟨hdig, hval, hne⟩ := natDigits_spec n n le_rfl
  unfold digitsToNat natRepr
  rw [if_neg (by
      cases hds : natDigits (n + 1) n
      · exact absurd hds hne
      · simp)]
  rw [if_pos (List.all_eq_true.mpr (fun c hc => by
      obtain ⟨d, hd, rfl⟩ := hdig c hc
      exact char_digit_isDigit d hd))]
  rw [hval 0]
  simp

theorem natRepr_headD_digit (n : Nat) :
    ∃ d : Nat, d < 10 ∧ (natRepr n).headD ' ' = Char.ofNat (48 + d) := by
  obtain ⟨c, cs, hcons⟩ := List.exists_cons_of_ne_nil (natRepr_ne_nil n)
  obtain ⟨d, hd, rfl⟩ := natRepr_digits n c (by rw [hcons]; simp)
  exact ⟨d, hd, by rw [hcons]; rfl⟩

theorem parseI32_natRepr (n : Nat) (hb : n ≤ 2147483647) :
    parseI32 (natRepr n) = some (n : Int) := by
  obtain ⟨d, hd, hhead⟩ := natRepr_headD_digit n
  unfold parseI32
  rw [if_neg (by rw [hhead]; exact char_digit_ne_minus d hd),
    if_neg (by rw [hhead]; exact char_digit_ne_plus d hd),
    digitsToNat_natRepr n]
  simp [hb]

theorem splitPred_no_sep (f : Char → Bool) :
    ∀ s : List Char, (∀ c ∈ s, f c = false) → splitPred f s = [s] := by
  intro s
  induction s with
  | nil => intro _; rfl
  | cons c rest ih =>
    intro h
    rw [splitPred, ih (fun u hu => h u (by simp [hu])),
      if_neg (by simp [h c (by simp)])]
    rfl

theorem splitOnChar_natRepr (n : Nat) :
    splitOnChar '/' (natRepr n) = [natRepr n] := by
  unfold splitOnChar
  apply splitPred_no_sep
  intro c hc
  obtain ⟨d, hd, rfl⟩ := natRepr_digits n c hc
  simp only [beq_eq_false_iff_ne]
  exact char_digit_ne_slash d hd

theorem splitWhite_natRepr (n : Nat) :
    splitWhite (natRepr n) = [natRepr n] := by
  unfold splitWhite
  rw [splitPred_no_sep Char.isWhitespace (natRepr n) (fun c hc => by
    obtain ⟨d, hd, rfl⟩ := natRepr_digits n c hc
    exact char_digit_not_ws d hd)]
  rw [List.filter_cons]
  rw [if_pos (by
    simp only [Bool.not_eq_true']
    show (natRepr n).isEmpty = false
    cases hds : natRepr n
    · exact absurd hds (natRepr_ne_nil n)
    · rfl)]
  rfl

theorem add_monomial_new (c : Int) (hc : c ≠ 0) :
    OddPolynomial.new.add_monomial ⟨c, []⟩ = ⟨[⟨c, []⟩]⟩ := by
  unfold OddPolynomial.add_monomial OddPolynomial.new
  rw [if_neg (by simp [OddMonomial.is_zero, hc])]
  rfl

theorem from_str_natRepr (c : Int) (h0 : 0 < c) (hb : c ≤ 2147483647) :
    OddPolynomial.from_str (natRepr c.toNat) = some (Except.ok ⟨[⟨c, []⟩]⟩) := by
  unfold OddPolynomial.from_str
  rw [splitOnChar_natRepr]
  rw [fromStrGo]
  simp only [splitWhite_natRepr, parseI32_natRepr c.toNat (by omega),
    show ((c.toNat : Nat) : Int) = c from by omega]
  show fromStrGo [] (OddPolynomial.new.add_monomial ⟨c, []⟩) =
    some (Except.ok ⟨[⟨c, []⟩]⟩)
  rw [add_monomial_new c (by omega)]
  rfl

theorem display_pos_constant (c : Int) (h0 : 0 < c) :
    OddPolynomial.display ⟨[⟨c, []⟩]⟩ = natRepr c.toNat := by
  unfold OddPolynomial.display OddMonomial.display OddMonomial.fmt_no_sign
  simp only [List.map_nil, List.flatten_nil, List.append_nil]
  rw [if_neg (show ¬((⟨c, []⟩ : OddMonomial).coefficient < 0) from by simp; omega)]
  rw [if_neg (show ¬((⟨c, []⟩ : OddMonomial).is_zero = true) from by
    simp [OddMonomial.is_zero]; omega)]
  show intRepr c = natRepr c.toNat
  unfold intRepr
  rw [if_neg (by omega)]

/-- C7 amended: formatting then re-parsing recovers the parsed polynomial
only in the degenerate cases: when the parse of `s` is the zero
polynomial (printed `"0"`) or a single constant term with positive
coefficient within the `i32` range and an empty power vector (printed as
its bare numeral).  In general the formatter's `x_i^p` notation is
outside the parser's grammar, so the round trip of the original claim
fails (see the counterexample). -/
theorem C7_round_trip_constant (s : List Char) (p : OddPolynomial)
    (hparse : OddPolynomial.from_str s = some (Except.ok p))
    (hshape : p.terms = [] ∨
      ∃ c : Int, 0 < c ∧ c ≤ 2147483647 ∧ p.terms = [⟨c, []⟩]) :
    OddPolynomial.from_str p.display = some (Except.ok p) := by
  rcases hshape with hnil | ⟨c, h0, hb, hcons⟩
  · cases p with
    | mk ts =>
      simp only at hnil
      subst hnil
      rfl
  · cases p with
    | mk ts =>
      simp only at hcons
      subst hcons
      rw [display_pos_constant c h0, from_str_natRepr c h0 hb]

/-- Witness for the amended C7 on the input `"5"`. -/
theorem C7_witness :
    OddPolynomial.from_str ['5'] = some (Except.ok ⟨[⟨5, []⟩]⟩) ∧
    OddPolynomial.from_str ((⟨[⟨5, []⟩]⟩ : OddPolynomial).display) =
      some (Except.ok ⟨[⟨5, []⟩]⟩) :=
  ⟨rfl, C7_round_trip_constant ['5'] ⟨[⟨5, []⟩]⟩ rfl
    (Or.inr ⟨5, by decide, by decide, rfl⟩)⟩

end Nilhecke
